import Mathlib

/-!
Verification of the incremental-evaluation operator nodes of
dwave-optimization (mathematical.hpp and nodes.pxd).

Values are modelled as rationals (the source stores `double`; all operators
used here — plus, minus, multiplies, logical and/or, equal, less-equal,
max, min, abs, negate, square — are exact, so ℚ is a faithful carrier).

Each Array-capable node holds, inside a State, a value buffer together with
a pending diff: a coalesced sequence of Update records describing the
changes relative to the last-committed buffer.
-/

/-- An atomic change record: target linear index, last-committed value,
current pending value. (array.hpp `Update`; the structural placed/removed
tags are not needed for fixed-shape buffers.) -/
structure Update where
  index : Nat
  old : ℚ
  value : ℚ
deriving DecidableEq, Repr

/-- The per-node data a State holds for one Array node: the current value
buffer and the pending diff since the last commit. -/
structure NodeStateData where
  buffer : List ℚ
  diff : List Update
deriving DecidableEq, Repr

/-- The last-committed value at index `i`, recovered from the pending diff
(each Update records the committed value as `old`) or, where no update is
pending, from the buffer itself. -/
def committedAt (s : NodeStateData) (i : Nat) : ℚ :=
  match s.diff.find? (fun u => u.index = i) with
  | some u => u.old
  | none => s.buffer.getD i 0

/-- Modelled from the spec: a single coalescing write ("set-value") to an
Array node's state. Writes `v` at index `i` and maintains the diff so that
each index carries at most one Update, recording the last-committed value
against the current pending value, and a write that returns the value to
its committed value removes the record entirely. Out-of-range writes are
ignored. -/
def setValue (s : NodeStateData) (i : Nat) (v : ℚ) : NodeStateData :=
  if i < s.buffer.length then
    let old := committedAt s i
    let rest := s.diff.filter (fun u => u.index ≠ i)
    if v = old then ⟨s.buffer.set i v, rest⟩
    else ⟨s.buffer.set i v, rest ++ [⟨i, old, v⟩]⟩
  else s

/-- Modelled from the spec: `commit(state)` clears the diff, establishing
the current buffer as the new baseline. -/
def commitNode (s : NodeStateData) : NodeStateData :=
  ⟨s.buffer, []⟩

/-- Play the pending diff backwards over a buffer, restoring each updated
index to its recorded last-committed value. -/
def revertBuf (buf : List ℚ) (diff : List Update) : List ℚ :=
  diff.foldl (fun b u => b.set u.index u.old) buf

/-- Modelled from the spec: `revert(state)` restores the buffer to the
last-committed values by undoing each pending Update, then clears the
diff. -/
def revertNode (s : NodeStateData) : NodeStateData :=
  ⟨revertBuf s.buffer s.diff, []⟩

/-- Validity of a node's pending diff relative to the last-committed
buffer `com`: every Update is in range, records the committed value as
`old` and the current buffer value as `value`, records an actual change,
indices are pairwise distinct, and every index without a pending Update
still holds its committed value. -/
def ValidDiff (com : List ℚ) (s : NodeStateData) : Prop :=
  s.buffer.length = com.length ∧
  (∀ u ∈ s.diff, u.index < com.length ∧ u.old = com.getD u.index 0 ∧
    u.value = s.buffer.getD u.index 0 ∧ u.old ≠ u.value) ∧
  s.diff.Pairwise (fun u w => u.index ≠ w.index) ∧
  (∀ i, i < com.length → (∀ u ∈ s.diff, u.index ≠ i) →
    s.buffer.getD i 0 = com.getD i 0)

theorem validDiff_nil (com : List ℚ) : ValidDiff com ⟨com, []⟩ := by
  refine ⟨rfl, ?_, ?_, ?_⟩ <;> simp

theorem getD_set_self (l : List ℚ) (i : Nat) (v : ℚ) (h : i < l.length) :
    (l.set i v).getD i 0 = v := by
  simp [List.getD_eq_getElem?_getD, List.getElem?_set_self', h,
    List.getElem?_eq_getElem]

theorem getD_set_ne (l : List ℚ) (i j : Nat) (v : ℚ) (h : i ≠ j) :
    (l.set i v).getD j 0 = l.getD j 0 := by
  simp [List.getD_eq_getElem?_getD, List.getElem?_set_ne h]

theorem committedAt_eq {com : List ℚ} {s : NodeStateData} (hs : ValidDiff com s)
    {i : Nat} (hi : i < com.length) : committedAt s i = com.getD i 0 := by
  obtain ⟨hlen, hupd, hpw, hout⟩ := hs
  unfold committedAt
  cases hfind : s.diff.find? (fun u => u.index = i) with
  | some u =>
      have hmem : u ∈ s.diff := List.mem_of_find?_eq_some hfind
      have hidx : u.index = i := by simpa using List.find?_some hfind
      have h2 := (hupd u hmem).2.1
      rw [hidx] at h2
      exact h2
  | none =>
      have hnone := List.find?_eq_none.mp hfind
      exact hout i hi (fun u hu => by simpa using hnone u hu)

theorem validDiff_setValue {com : List ℚ} {s : NodeStateData} (hs : ValidDiff com s)
    (i : Nat) (v : ℚ) : ValidDiff com (setValue s i v) := by
  obtain ⟨hlen, hupd, hpw, hout⟩ := hs
  unfold setValue
  by_cases hi : i < s.buffer.length
  swap
  · simpa [hi] using ⟨hlen, hupd, hpw, hout⟩
  have hicom : i < com.length := hlen ▸ hi
  have hcom : committedAt s i = com.getD i 0 :=
    committedAt_eq ⟨hlen, hupd, hpw, hout⟩ hicom
  have hrest_mem : ∀ u ∈ s.diff.filter (fun u => u.index ≠ i),
      u ∈ s.diff ∧ u.index ≠ i := by
    intro u hu
    have h2 := List.mem_filter.mp hu
    exact ⟨h2.1, by simpa using h2.2⟩
  have hrest_pw : (s.diff.filter (fun u => u.index ≠ i)).Pairwise
      (fun u w => u.index ≠ w.index) := hpw.sublist (List.filter_sublist _)
  have hrest_none : ∀ j, j ≠ i →
      (∀ u ∈ s.diff.filter (fun u => u.index ≠ i), u.index ≠ j) →
      (∀ u ∈ s.diff, u.index ≠ j) := by
    intro j hj hno u hu
    by_cases hui : u.index = i
    · rw [hui]
      exact fun h => hj h.symm
    · exact hno u (List.mem_filter.mpr ⟨hu, by simpa using hui⟩)
  by_cases hv : v = committedAt s i
  · simp only [hi, if_true, hv, if_pos rfl]
    refine ⟨by simpa using hlen, ?_, hrest_pw, ?_⟩
    · intro u hu
      obtain ⟨hmem, hne⟩ := hrest_mem u hu
      obtain ⟨h1, h2, h3, h4⟩ := hupd u hmem
      exact ⟨h1, h2, by rw [getD_set_ne _ _ _ _ (fun h => hne h.symm)]; exact h3, h4⟩
    · intro j hj hno
      by_cases hji : j = i
      · subst hji
        rw [getD_set_self _ _ _ hi, hcom.symm]
      · rw [getD_set_ne _ _ _ _ (fun h => hji h.symm)]
        exact hout j hj (hrest_none j hji hno)
  · simp only [hi, if_true, if_neg hv]
    refine ⟨by simpa using hlen, ?_, ?_, ?_⟩
    · intro u hu
      rcases List.mem_append.mp hu with hu1 | hu2
      · obtain ⟨hmem, hne⟩ := hrest_mem u hu1
        obtain ⟨h1, h2, h3, h4⟩ := hupd u hmem
        exact ⟨h1, h2, by rw [getD_set_ne _ _ _ _ (fun h => hne h.symm)]; exact h3, h4⟩
      · have : u = ⟨i, committedAt s i, v⟩ := by simpa using hu2
        subst this
        refine ⟨hicom, hcom, ?_, fun h => hv h.symm⟩
        rw [getD_set_self _ _ _ hi]
    · rw [List.pairwise_append]
      refine ⟨hrest_pw, by simp, ?_⟩
      intro u hu w hw
      have : w = ⟨i, committedAt s i, v⟩ := by simpa using hw
      subst this
      exact (hrest_mem u hu).2
    · intro j hj hno
      have hji : j ≠ i := by
        intro h
        subst h
        exact hno ⟨j, committedAt s j, v⟩ (by simp) rfl
      rw [getD_set_ne _ _ _ _ (fun h => hji h.symm)]
      refine hout j hj (hrest_none j hji ?_)
      intro u hu
      exact hno u (List.mem_append.mpr (Or.inl hu))

theorem revertBuf_length (buf : List ℚ) (diff : List Update) :
    (revertBuf buf diff).length = buf.length := by
  induction diff generalizing buf with
  | nil => rfl
  | cons u rest ih =>
      show (revertBuf (buf.set u.index u.old) rest).length = _
      rw [ih]
      simp

theorem revertBuf_getD (buf : List ℚ) (diff : List Update)
    (hpw : diff.Pairwise (fun u w => u.index ≠ w.index))
    (hrange : ∀ u ∈ diff, u.index < buf.length) (j : Nat) :
    (revertBuf buf diff).getD j 0 =
      (match diff.find? (fun u => u.index = j) with
      | some u => u.old
      | none => buf.getD j 0) := by
  induction diff generalizing buf with
  | nil => rfl
  | cons u rest ih =>
      rw [List.pairwise_cons] at hpw
      have hstep : revertBuf buf (u :: rest) = revertBuf (buf.set u.index u.old) rest := rfl
      have hrange2 : ∀ w ∈ rest, w.index < (buf.set u.index u.old).length := by
        intro w hw
        simpa using hrange w (List.mem_cons_of_mem u hw)
      rw [hstep, ih _ hpw.2 hrange2]
      by_cases hj : u.index = j
      · subst hj
        have hnone : rest.find? (fun w => w.index = u.index) = none := by
          apply List.find?_eq_none.mpr
          intro w hw
          simpa using fun h => (hpw.1 w hw) h.symm
        have hfind : (u :: rest).find? (fun w => w.index = u.index) = some u := by
          simp [List.find?_cons]
        rw [hnone, hfind]
        exact getD_set_self _ _ _ (hrange u (List.mem_cons_self u rest))
      · have hfind2 : (u :: rest).find? (fun w => w.index = j) =
            rest.find? (fun w => w.index = j) := by
          simp [List.find?_cons, hj]
        rw [hfind2]
        cases rest.find? (fun w => w.index = j) with
        | some w => rfl
        | none => exact getD_set_ne _ _ _ _ hj

theorem revertNode_eq {com : List ℚ} {s : NodeStateData} (hs : ValidDiff com s) :
    revertNode s = ⟨com, []⟩ := by
  obtain ⟨hlen, hupd, hpw, hout⟩ := hs
  unfold revertNode
  have hrange : ∀ u ∈ s.diff, u.index < s.buffer.length := by
    intro u hu
    rw [hlen]
    exact (hupd u hu).1
  have hL : (revertBuf s.buffer s.diff).length = com.length := by
    rw [revertBuf_length, hlen]
  congr 1
  apply List.ext_getElem hL
  intro j h1 h2
  have hgd : (revertBuf s.buffer s.diff).getD j 0 = com.getD j 0 := by
    rw [revertBuf_getD s.buffer s.diff hpw hrange j]
    cases hfind : s.diff.find? (fun u => u.index = j) with
    | some u =>
        have hmem : u ∈ s.diff := List.mem_of_find?_eq_some hfind
        have hidx : u.index = j := by simpa using List.find?_some hfind
        have h2 := (hupd u hmem).2.1
        rw [hidx] at h2
        exact h2
    | none =>
        have hnone := List.find?_eq_none.mp hfind
        exact hout j h2 (fun u hu => by simpa using hnone u hu)
  rw [List.getD_eq_getElem _ _ h1, List.getD_eq_getElem _ _ h2] at hgd
  exact hgd

theorem getD_set_self_gen {α : Type} (l : List α) (i : Nat) (v d : α)
    (h : i < l.length) : (l.set i v).getD i d = v := by
  simp [List.getD_eq_getElem?_getD, List.getElem?_set_self', h,
    List.getElem?_eq_getElem]

theorem getD_set_ne_gen {α : Type} (l : List α) (i j : Nat) (v d : α)
    (h : i ≠ j) : (l.set i v).getD j d = l.getD j d := by
  simp [List.getD_eq_getElem?_getD, List.getElem?_set_ne h]

/-- Default per-node state, used only as the `getD` fallback. -/
def emptyNodeState : NodeStateData := ⟨[], []⟩

/-- An elementwise operator node together with its predecessor
decision-variable nodes, inside one State: the list of operand states and
the operator node's own state. Covers UnaryOpNode (one operand),
BinaryOpNode (two operands) and NaryOpNode (any number of operands), with
`g` the elementwise function applied to the column of operand values. -/
structure OpSys where
  ops : List NodeStateData
  out : NodeStateData
deriving DecidableEq, Repr

/-- The values of every operand at linear index `i`. -/
def column (bufs : List (List ℚ)) (i : Nat) : List ℚ :=
  bufs.map (fun b => b.getD i 0)

/-- A from-scratch elementwise evaluation: apply `g` to the operand column
at every index. -/
def fromScratch (g : List ℚ → ℚ) (bufs : List (List ℚ)) (n : Nat) : List ℚ :=
  (List.range n).map (fun i => g (column bufs i))

/-- Modelled from the spec: `initialize_state` computes the node's buffer
from scratch using predecessor buffers, with an empty diff everywhere. -/
def initializeState (g : List ℚ → ℚ) (bufs : List (List ℚ)) (n : Nat) : OpSys :=
  ⟨bufs.map (fun b => ⟨b, []⟩), ⟨fromScratch g bufs n, []⟩⟩

/-- The linear indices touched by any pending operand Update. -/
def touchedIdx (ops : List NodeStateData) : List Nat :=
  (((ops.map (fun o => o.diff)).flatten).map (fun u => u.index)).dedup

/-- Modelled from the spec: `propagate` reads the predecessors' diffs, and
for each Update index recomputes the elementwise function at that index
using the current values of all operands, emitting an Update on the node's
own diff only where the result differs from the last-committed output. -/
def propagate (g : List ℚ → ℚ) (s : OpSys) : OpSys :=
  ⟨s.ops, (touchedIdx s.ops).foldl
    (fun o i => setValue o i (g (column (s.ops.map (fun o2 => o2.buffer)) i))) s.out⟩

/-- `commit` on every node of the subsystem. -/
def commitSys (s : OpSys) : OpSys := ⟨s.ops.map commitNode, commitNode s.out⟩

/-- `revert` on every node of the subsystem. -/
def revertSys (s : OpSys) : OpSys := ⟨s.ops.map revertNode, revertNode s.out⟩

/-- A single decision-variable mutation: node index, linear index, value. -/
structure Mut where
  node : Nat
  index : Nat
  value : ℚ
deriving DecidableEq, Repr

/-- Apply one mutation to the operand decision variables. -/
def mutateOps (ops : List NodeStateData) (m : Mut) : List NodeStateData :=
  ops.set m.node (setValue (ops.getD m.node emptyNodeState) m.index m.value)

/-- A caller mutation touches only the decision-variable operands. -/
def mutate (s : OpSys) (m : Mut) : OpSys := ⟨mutateOps s.ops m, s.out⟩

def applyMuts (ms : List Mut) (s : OpSys) : OpSys := ms.foldl mutate s

/-- One propagation round: mutations, then `propagate`, then either
`commit` (accept the move) or `revert` (reject it). -/
def runRound (g : List ℚ → ℚ) (r : List Mut × Bool) (s : OpSys) : OpSys :=
  if r.2 then commitSys (propagate g (applyMuts r.1 s))
  else revertSys (propagate g (applyMuts r.1 s))

def runRounds (g : List ℚ → ℚ) (rs : List (List Mut × Bool)) (s : OpSys) : OpSys :=
  rs.foldl (fun s r => runRound g r s) s

/-- A round-boundary state: every diff is empty, operand buffers have the
static length `n`, and the operator node's buffer equals the from-scratch
evaluation of the current operand buffers. -/
def Clean (g : List ℚ → ℚ) (n : Nat) (s : OpSys) : Prop :=
  (∀ o ∈ s.ops, o.diff = [] ∧ o.buffer.length = n) ∧
  s.out = ⟨fromScratch g (s.ops.map (fun o => o.buffer)) n, []⟩

/-- Validity of every operand's pending diff against a list of committed
buffers. -/
def OpsValid (coms : List (List ℚ)) (ops : List NodeStateData) : Prop :=
  ops.length = coms.length ∧
  ∀ k, k < coms.length → ValidDiff (coms.getD k []) (ops.getD k emptyNodeState)

theorem setValue_buffer (s : NodeStateData) (i : Nat) (v : ℚ) :
    (setValue s i v).buffer =
      if i < s.buffer.length then s.buffer.set i v else s.buffer := by
  unfold setValue
  by_cases h : i < s.buffer.length
  · simp only [h, if_true]
    split <;> rfl
  · simp [h]

theorem setValue_length (s : NodeStateData) (i : Nat) (v : ℚ) :
    (setValue s i v).buffer.length = s.buffer.length := by
  rw [setValue_buffer]
  split <;> simp

theorem opsValid_mutate {coms : List (List ℚ)} {ops : List NodeStateData}
    (h : OpsValid coms ops) (m : Mut) : OpsValid coms (mutateOps ops m) := by
  obtain ⟨hlen, hvd⟩ := h
  unfold mutateOps
  by_cases hm : m.node < ops.length
  · refine ⟨by simpa using hlen, ?_⟩
    intro k hk
    by_cases hkm : k = m.node
    · subst hkm
      rw [getD_set_self_gen _ _ _ _ hm]
      exact validDiff_setValue (hvd m.node (hlen ▸ hm)) m.index m.value
    · rw [getD_set_ne_gen _ _ _ _ _ (fun h2 => hkm h2.symm)]
      exact hvd k hk
  · rw [List.set_eq_of_length_le (Nat.le_of_not_lt hm)]
    exact ⟨hlen, hvd⟩

theorem opsValid_applyMuts {coms : List (List ℚ)} {s : OpSys}
    (h : OpsValid coms s.ops) (ms : List Mut) :
    OpsValid coms (applyMuts ms s).ops := by
  induction ms generalizing s with
  | nil => exact h
  | cons m rest ih =>
      exact ih (s := mutate s m) (opsValid_mutate h m)

theorem applyMuts_out (ms : List Mut) (s : OpSys) :
    (applyMuts ms s).out = s.out := by
  induction ms generalizing s with
  | nil => rfl
  | cons m rest ih => exact ih (mutate s m)

theorem propagate_ops (g : List ℚ → ℚ) (s : OpSys) :
    (propagate g s).ops = s.ops := rfl

theorem foldl_setValue_length (T : List Nat) (val : Nat → ℚ) (o : NodeStateData) :
    ((T.foldl (fun o i => setValue o i (val i)) o).buffer).length = o.buffer.length := by
  induction T generalizing o with
  | nil => rfl
  | cons i T ih =>
      show ((T.foldl _ (setValue o i (val i))).buffer).length = _
      rw [ih, setValue_length]

theorem foldl_setValue_getD (T : List Nat) (hT : T.Nodup) (val : Nat → ℚ)
    (o : NodeStateData) (j : Nat) :
    ((T.foldl (fun o i => setValue o i (val i)) o).buffer).getD j 0 =
      if j ∈ T ∧ j < o.buffer.length then val j else o.buffer.getD j 0 := by
  induction T generalizing o with
  | nil => simp
  | cons i T ih =>
      rw [List.nodup_cons] at hT
      have hstep : (i :: T).foldl (fun o i => setValue o i (val i)) o
          = T.foldl (fun o i => setValue o i (val i)) (setValue o i (val i)) := rfl
      rw [hstep, ih hT.2, setValue_length]
      by_cases hjT : j ∈ T
      · by_cases hjl : j < o.buffer.length
        · simp [hjT, hjl, List.mem_cons]
        · simp only [hjT, hjl, and_false, if_false, and_true, List.mem_cons]
          rw [setValue_buffer]
          split
          · rename_i hil
            exact getD_set_ne _ _ _ _ (fun h => hjl (h ▸ hil))
          · rfl
      · by_cases hji : j = i
        · subst hji
          by_cases hjl : j < o.buffer.length
          · simp only [hjT, false_and, if_false, List.mem_cons, true_or, hjl,
              and_true, if_true]
            rw [setValue_buffer, if_pos hjl]
            exact getD_set_self _ _ _ hjl
          · simp only [hjT, false_and, if_false, List.mem_cons, hjl, and_false]
            rw [setValue_buffer, if_neg hjl]
        · simp only [hjT, false_and, if_false, List.mem_cons, hji,
            false_or, and_false]
          rw [setValue_buffer]
          split
          · exact getD_set_ne _ _ _ _ (fun h => hji h.symm)
          · rfl

theorem validDiff_foldl_setValue {com : List ℚ} {o : NodeStateData}
    (h : ValidDiff com o) (T : List Nat) (val : Nat → ℚ) :
    ValidDiff com (T.foldl (fun o i => setValue o i (val i)) o) := by
  induction T generalizing o with
  | nil => exact h
  | cons i T ih => exact ih (validDiff_setValue h i (val i))

theorem fromScratch_length (g : List ℚ → ℚ) (bufs : List (List ℚ)) (n : Nat) :
    (fromScratch g bufs n).length = n := by
  simp [fromScratch]

theorem fromScratch_getD (g : List ℚ → ℚ) (bufs : List (List ℚ)) {n j : Nat}
    (h : j < n) : (fromScratch g bufs n).getD j 0 = g (column bufs j) := by
  unfold fromScratch
  rw [List.getD_eq_getElem _ _ (by simpa using h)]
  simp

theorem mem_touchedIdx {ops : List NodeStateData} {j : Nat} :
    j ∈ touchedIdx ops ↔ ∃ o ∈ ops, ∃ u ∈ o.diff, u.index = j := by
  simp only [touchedIdx, List.mem_dedup, List.mem_map, List.mem_flatten]
  constructor
  · rintro ⟨u, ⟨l, ⟨o, ho, rfl⟩, hu⟩, rfl⟩
    exact ⟨o, ho, u, hu, rfl⟩
  · rintro ⟨o, ho, u, hu, rfl⟩
    exact ⟨u, ⟨o.diff, ⟨o, ho, rfl⟩, hu⟩, rfl⟩

theorem column_untouched {coms : List (List ℚ)} {ops : List NodeStateData}
    {n : Nat} (hcom : ∀ c ∈ coms, c.length = n) (hops : OpsValid coms ops)
    {j : Nat} (hj : j < n) (hnt : j ∉ touchedIdx ops) :
    column (ops.map (fun o => o.buffer)) j = column coms j := by
  obtain ⟨hlen, hvd⟩ := hops
  unfold column
  apply List.ext_getElem (by simp [hlen])
  intro k h1 h2
  simp only [List.getElem_map]
  have hk : k < coms.length := by simpa using h2
  have hk2 : k < ops.length := by simpa [hlen] using hk
  have hvdk := hvd k hk
  rw [List.getD_eq_getElem _ _ hk2, List.getD_eq_getElem _ _ hk] at hvdk
  obtain ⟨hl, hu, hpw, hout⟩ := hvdk
  have hjn : j < coms[k].length := by rw [hcom coms[k] (coms.getElem_mem hk)]; exact hj
  exact hout j hjn (fun u hu2 => by
    intro hcontra
    exact hnt (mem_touchedIdx.mpr ⟨ops[k], ops.getElem_mem hk2, u, hu2, hcontra⟩))

theorem propagate_out_buffer {g : List ℚ → ℚ} {n : Nat} {coms : List (List ℚ)}
    {ops : List NodeStateData}
    (hcom : ∀ c ∈ coms, c.length = n) (hops : OpsValid coms ops) :
    (propagate g ⟨ops, ⟨fromScratch g coms n, []⟩⟩).out.buffer
      = fromScratch g (ops.map (fun o => o.buffer)) n := by
  have hout : (propagate g ⟨ops, ⟨fromScratch g coms n, []⟩⟩).out
      = (touchedIdx ops).foldl
        (fun o i => setValue o i (g (column (ops.map (fun o2 => o2.buffer)) i)))
        ⟨fromScratch g coms n, []⟩ := rfl
  rw [hout]
  have hlenL : ((touchedIdx ops).foldl
      (fun o i => setValue o i (g (column (ops.map (fun o2 => o2.buffer)) i)))
      ⟨fromScratch g coms n, []⟩).buffer.length = n := by
    rw [foldl_setValue_length]
    exact fromScratch_length g coms n
  apply List.ext_getElem (by rw [hlenL, fromScratch_length])
  intro j h1 h2
  have hjn : j < n := by simpa [hlenL] using h1
  rw [← List.getD_eq_getElem _ 0 h1, ← List.getD_eq_getElem _ 0 h2]
  have htnodup : (touchedIdx ops).Nodup := List.nodup_dedup _
  rw [foldl_setValue_getD (touchedIdx ops) htnodup
    (fun i => g (column (ops.map (fun o2 => o2.buffer)) i))
    ⟨fromScratch g coms n, []⟩ j]
  rw [fromScratch_getD g (ops.map (fun o => o.buffer)) hjn]
  by_cases hT : j ∈ touchedIdx ops
  · rw [if_pos ⟨hT, by simpa [fromScratch_length] using hjn⟩]
  · rw [if_neg (fun h => hT h.1)]
    rw [fromScratch_getD g coms hjn]
    rw [column_untouched hcom hops hjn hT]

theorem clean_opsValid {g : List ℚ → ℚ} {n : Nat} {s : OpSys} (hs : Clean g n s) :
    OpsValid (s.ops.map (fun o => o.buffer)) s.ops := by
  refine ⟨by simp, ?_⟩
  intro k hk
  have hk2 : k < s.ops.length := by simpa using hk
  have ho := hs.1 (s.ops[k]) (s.ops.getElem_mem hk2)
  have h1 : (s.ops.map (fun o => o.buffer)).getD k [] = s.ops[k].buffer := by
    rw [List.getD_eq_getElem _ _ hk]
    simp
  have h2 : s.ops.getD k emptyNodeState = s.ops[k] := List.getD_eq_getElem _ _ hk2
  have h3 : s.ops[k] = ⟨s.ops[k].buffer, []⟩ := by rw [← ho.1]
  rw [h1, h2, h3]
  exact validDiff_nil _

theorem clean_bufLens {g : List ℚ → ℚ} {n : Nat} {s : OpSys} (hs : Clean g n s) :
    ∀ c ∈ s.ops.map (fun o => o.buffer), c.length = n := by
  intro c hc
  obtain ⟨o, ho, rfl⟩ := List.mem_map.mp hc
  exact (hs.1 o ho).2

theorem round_propagate_buffer {g : List ℚ → ℚ} {n : Nat} {s : OpSys}
    (hs : Clean g n s) (ms : List Mut) :
    (propagate g (applyMuts ms s)).out.buffer
      = fromScratch g ((applyMuts ms s).ops.map (fun o => o.buffer)) n := by
  have hov : OpsValid (s.ops.map (fun o => o.buffer)) (applyMuts ms s).ops :=
    opsValid_applyMuts (clean_opsValid hs) ms
  have key := propagate_out_buffer (g := g) (clean_bufLens hs) hov
  have hout2 : (applyMuts ms s).out
      = ⟨fromScratch g (s.ops.map (fun o => o.buffer)) n, []⟩ := by
    rw [applyMuts_out]
    exact hs.2
  have heq : propagate g (applyMuts ms s)
      = propagate g ⟨(applyMuts ms s).ops,
          ⟨fromScratch g (s.ops.map (fun o => o.buffer)) n, []⟩⟩ := by
    rw [← hout2]
  rw [heq]
  exact key

theorem round_propagate_validDiff {g : List ℚ → ℚ} {n : Nat} {s : OpSys}
    (hs : Clean g n s) (ms : List Mut) :
    ValidDiff (fromScratch g (s.ops.map (fun o => o.buffer)) n)
      (propagate g (applyMuts ms s)).out := by
  have hout2 : (applyMuts ms s).out
      = ⟨fromScratch g (s.ops.map (fun o => o.buffer)) n, []⟩ := by
    rw [applyMuts_out]
    exact hs.2
  have heq : propagate g (applyMuts ms s)
      = propagate g ⟨(applyMuts ms s).ops,
          ⟨fromScratch g (s.ops.map (fun o => o.buffer)) n, []⟩⟩ := by
    rw [← hout2]
  rw [heq]
  exact validDiff_foldl_setValue (validDiff_nil _) _ _

theorem ops_bufLens_applyMuts {g : List ℚ → ℚ} {n : Nat} {s : OpSys}
    (hs : Clean g n s) (ms : List Mut) :
    ∀ o ∈ (applyMuts ms s).ops, o.buffer.length = n := by
  have hov : OpsValid (s.ops.map (fun o => o.buffer)) (applyMuts ms s).ops :=
    opsValid_applyMuts (clean_opsValid hs) ms
  intro o ho
  obtain ⟨k, hk, rfl⟩ := List.mem_iff_getElem.mp ho
  have hk2 : k < (s.ops.map (fun o => o.buffer)).length := by
    rw [← hov.1]
    exact hk
  have hvd := hov.2 k hk2
  rw [List.getD_eq_getElem _ _ hk] at hvd
  rw [hvd.1]
  rw [List.getD_eq_getElem _ _ hk2]
  exact clean_bufLens hs _ ((s.ops.map (fun o => o.buffer)).getElem_mem hk2)

theorem revert_round_id {g : List ℚ → ℚ} {n : Nat} {s : OpSys}
    (hs : Clean g n s) (ms : List Mut) :
    revertSys (propagate g (applyMuts ms s)) = s := by
  have hov : OpsValid (s.ops.map (fun o => o.buffer)) (applyMuts ms s).ops :=
    opsValid_applyMuts (clean_opsValid hs) ms
  have hops_eq : ((propagate g (applyMuts ms s)).ops).map revertNode = s.ops := by
    rw [propagate_ops]
    apply List.ext_getElem (by simpa using hov.1)
    intro k h1 h2
    have hk : k < (applyMuts ms s).ops.length := by simpa using h1
    have hkc : k < (s.ops.map (fun o => o.buffer)).length := by
      rw [← hov.1]
      exact hk
    have hvd := hov.2 k hkc
    rw [List.getD_eq_getElem _ _ hk] at hvd
    rw [List.getElem_map]
    rw [revertNode_eq hvd]
    have ho := hs.1 (s.ops[k]) (s.ops.getElem_mem h2)
    have h3 : s.ops[k] = ⟨s.ops[k].buffer, []⟩ := by rw [← ho.1]
    rw [h3]
    congr 1
    rw [List.getD_eq_getElem _ _ hkc]
    simp
  have hout_eq : revertNode (propagate g (applyMuts ms s)).out = s.out := by
    rw [revertNode_eq (round_propagate_validDiff hs ms)]
    exact hs.2.symm
  show OpSys.mk ((applyMuts ms s).ops.map revertNode)
      (revertNode (propagate g (applyMuts ms s)).out) = s
  rw [show (applyMuts ms s).ops.map revertNode = s.ops from hops_eq, hout_eq]

theorem clean_commit_round {g : List ℚ → ℚ} {n : Nat} {s : OpSys}
    (hs : Clean g n s) (ms : List Mut) :
    Clean g n (commitSys (propagate g (applyMuts ms s))) := by
  constructor
  · intro o ho
    have ho2 : o ∈ ((applyMuts ms s).ops).map commitNode := by
      simpa [commitSys, propagate_ops] using ho
    obtain ⟨o2, hmem2, rfl⟩ := List.mem_map.mp ho2
    exact ⟨rfl, ops_bufLens_applyMuts hs ms o2 hmem2⟩
  · show commitNode (propagate g (applyMuts ms s)).out = _
    unfold commitNode
    congr 1
    rw [round_propagate_buffer hs ms]
    congr 1
    show List.map _ (applyMuts ms s).ops
      = ((applyMuts ms s).ops.map commitNode).map (fun o => o.buffer)
    rw [List.map_map]
    rfl

theorem clean_initializeState (g : List ℚ → ℚ) (bufs : List (List ℚ)) (n : Nat)
    (h : ∀ b ∈ bufs, b.length = n) : Clean g n (initializeState g bufs n) := by
  constructor
  · intro o ho
    have ho2 : o ∈ bufs.map (fun b => (⟨b, []⟩ : NodeStateData)) := ho
    obtain ⟨b, hb, rfl⟩ := List.mem_map.mp ho2
    exact ⟨rfl, h b hb⟩
  · show (⟨fromScratch g bufs n, []⟩ : NodeStateData)
      = ⟨fromScratch g ((bufs.map (fun b => (⟨b, []⟩ : NodeStateData))).map
          (fun o => o.buffer)) n, []⟩
    have hb : ∀ L : List (List ℚ), (L.map (fun b => (⟨b, []⟩ : NodeStateData))).map
        (fun o => o.buffer) = L := by
      intro L
      induction L with
      | nil => rfl
      | cons b bs ih =>
          simp only [List.map_cons]
          rw [ih]
    rw [hb]

theorem clean_runRound {g : List ℚ → ℚ} {n : Nat} {s : OpSys} (hs : Clean g n s)
    (r : List Mut × Bool) : Clean g n (runRound g r s) := by
  unfold runRound
  by_cases hr : r.2
  · rw [if_pos hr]
    exact clean_commit_round hs r.1
  · rw [if_neg hr, revert_round_id hs r.1]
    exact hs

theorem clean_runRounds {g : List ℚ → ℚ} {n : Nat} {s : OpSys} (hs : Clean g n s)
    (rs : List (List Mut × Bool)) : Clean g n (runRounds g rs s) := by
  induction rs generalizing s with
  | nil => exact hs
  | cons r rs ih => exact ih (clean_runRound hs r)

/-- The binary elementwise operators instantiated by `BinaryOpNode`,
`NaryOpNode` and `ReduceNode` in mathematical.hpp: std::plus, std::minus,
std::multiplies, std::logical_and, std::logical_or, std::equal_to,
std::less_equal, functional::max, functional::min over double. The
comparison and logical operators return the bool result converted to
double, hence 0 or 1. -/
inductive BinOp
  | add
  | sub
  | mul
  | land
  | lor
  | beq
  | ble
  | bmax
  | bmin
deriving DecidableEq, Repr

def BinOp.apply : BinOp → ℚ → ℚ → ℚ
  | .add => fun x y => x + y
  | .sub => fun x y => x - y
  | .mul => fun x y => x * y
  | .land => fun x y => if x ≠ 0 ∧ y ≠ 0 then 1 else 0
  | .lor => fun x y => if x ≠ 0 ∨ y ≠ 0 then 1 else 0
  | .beq => fun x y => if x = y then 1 else 0
  | .ble => fun x y => if x ≤ y then 1 else 0
  | .bmax => fun x y => max x y
  | .bmin => fun x y => min x y

/-- The unary elementwise operators instantiated by `UnaryOpNode`:
functional::abs, std::negate, functional::square. -/
inductive UnaryOp
  | abs
  | negate
  | square
deriving DecidableEq, Repr

def UnaryOp.apply : UnaryOp → ℚ → ℚ
  | .abs => fun x => |x|
  | .negate => fun x => -x
  | .square => fun x => x * x

/-- BinaryOpNode aliases, mathematical.hpp lines 80 to 88. -/
def AddNode : BinOp := .add
def AndNode : BinOp := .land
def EqualNode : BinOp := .beq
def LessEqualNode : BinOp := .ble
def MultiplyNode : BinOp := .mul
def MaximumNode : BinOp := .bmax
def MinimumNode : BinOp := .bmin
def OrNode : BinOp := .lor
def SubtractNode : BinOp := .sub

/-- NaryOpNode aliases, mathematical.hpp lines 116 to 119. -/
def NaryAddNode : BinOp := .add
def NaryMaximumNode : BinOp := .bmax
def NaryMinimumNode : BinOp := .bmin
def NaryMultiplyNode : BinOp := .mul

/-- ReduceNode aliases, mathematical.hpp lines 169 to 173. -/
def AllNode : BinOp := .land
def MaxNode : BinOp := .bmax
def MinNode : BinOp := .bmin
def ProdNode : BinOp := .mul
def SumNode : BinOp := .add

/-- UnaryOpNode aliases, mathematical.hpp lines 204 to 206. -/
def AbsoluteNode : UnaryOp := .abs
def NegativeNode : UnaryOp := .negate
def SquareNode : UnaryOp := .square

/-- The elementwise function of a UnaryOpNode on the (single-entry) column
of operand values. -/
def unaryG (f : UnaryOp) : List ℚ → ℚ := fun col => f.apply (col.getD 0 0)

/-- The elementwise function of a BinaryOpNode on the (two-entry) column
of operand values. -/
def binaryG (f : BinOp) : List ℚ → ℚ :=
  fun col => f.apply (col.getD 0 0) (col.getD 1 0)

/-- The elementwise function of an NaryOpNode: fold the binary operator
over the column of operand values. -/
def naryG (f : BinOp) : List ℚ → ℚ := fun col =>
  match col with
  | [] => 0
  | x :: xs => xs.foldl f.apply x

/-- fold of a binary reduce operator with an initial value over the
predecessor buffer: the from-scratch value of a ReduceNode. -/
def foldReduce (op : BinOp) (init : ℚ) (buf : List ℚ) : ℚ :=
  buf.foldl op.apply init

/-- ReduceNode subsystem for a SumNode: the single Array predecessor
(a decision variable) and the scalar output node (ScalarOutputMixin,
single-element buffer). -/
structure RedSys where
  pred : NodeStateData
  out : NodeStateData
deriving DecidableEq, Repr

/-- Modelled from the spec: `initialize_state` for a SumNode computes the
scalar from scratch as fold(plus, init, predecessor buffer). -/
def redInitializeState (init : ℚ) (buf : List ℚ) : RedSys :=
  ⟨⟨buf, []⟩, ⟨[foldReduce .add init buf], []⟩⟩

/-- The scalar correction carried by a predecessor diff under plus: for
each Update, remove the old element's contribution and add the new. -/
def sumCorrections (diff : List Update) : ℚ :=
  (diff.map (fun u => u.value - u.old)).sum

/-- Modelled from the spec: SumNode `propagate` adjusts the scalar
incrementally by the predecessor diff corrections only, without rescanning
the rest of the predecessor buffer. -/
def redPropagate (s : RedSys) : RedSys :=
  ⟨s.pred, setValue s.out 0 (s.out.buffer.getD 0 0 + sumCorrections s.pred.diff)⟩

def redCommit (s : RedSys) : RedSys := ⟨commitNode s.pred, commitNode s.out⟩

def redRevert (s : RedSys) : RedSys := ⟨revertNode s.pred, revertNode s.out⟩

/-- A caller mutation of the decision-variable predecessor. -/
def redMutate (s : RedSys) (i : Nat) (v : ℚ) : RedSys :=
  ⟨setValue s.pred i v, s.out⟩

def redApplyMuts (ms : List (Nat × ℚ)) (s : RedSys) : RedSys :=
  ms.foldl (fun s m => redMutate s m.1 m.2) s

def redRunRound (r : List (Nat × ℚ) × Bool) (s : RedSys) : RedSys :=
  if r.2 then redCommit (redPropagate (redApplyMuts r.1 s))
  else redRevert (redPropagate (redApplyMuts r.1 s))

def redRunRounds (rs : List (List (Nat × ℚ) × Bool)) (s : RedSys) : RedSys :=
  rs.foldl (fun s r => redRunRound r s) s

/-- A round-boundary state of the SumNode subsystem. -/
def RedClean (init : ℚ) (n : Nat) (s : RedSys) : Prop :=
  s.pred.diff = [] ∧ s.pred.buffer.length = n ∧
  s.out = ⟨[foldReduce .add init s.pred.buffer], []⟩

theorem foldReduce_add (init : ℚ) (buf : List ℚ) :
    foldReduce .add init buf = init + buf.sum := by
  unfold foldReduce
  induction buf generalizing init with
  | nil => simp
  | cons x xs ih =>
      show xs.foldl (BinOp.add.apply) (BinOp.apply .add init x) = _
      rw [ih]
      show init + x + xs.sum = init + (x + xs.sum)
      ring

theorem sum_set (l : List ℚ) (i : Nat) (v : ℚ) (h : i < l.length) :
    (l.set i v).sum = l.sum + v - l.getD i 0 := by
  induction l generalizing i with
  | nil => simp at h
  | cons x xs ih =>
      cases i with
      | zero => simp [List.set]; ring
      | succ i =>
          have h2 : i < xs.length := by simpa using h
          show (x :: xs.set i v).sum = _
          rw [List.sum_cons, List.sum_cons, ih i h2]
          show x + (xs.sum + v - xs.getD i 0) = x + xs.sum + v - (x :: xs).getD (i + 1) 0
          rw [show (x :: xs).getD (i + 1) 0 = xs.getD i 0 from rfl]
          ring

theorem revertBuf_sum (buf : List ℚ) (diff : List Update)
    (hpw : diff.Pairwise (fun u w => u.index ≠ w.index))
    (hok : ∀ u ∈ diff, u.index < buf.length ∧ u.value = buf.getD u.index 0) :
    (revertBuf buf diff).sum = buf.sum - sumCorrections diff := by
  induction diff generalizing buf with
  | nil => simp [sumCorrections, revertBuf]
  | cons u rest ih =>
      rw [List.pairwise_cons] at hpw
      have hu := hok u (List.mem_cons_self u rest)
      have hok2 : ∀ w ∈ rest, w.index < (buf.set u.index u.old).length ∧
          w.value = (buf.set u.index u.old).getD w.index 0 := by
        intro w hw
        have hww := hok w (List.mem_cons_of_mem u hw)
        refine ⟨by simpa using hww.1, ?_⟩
        rw [getD_set_ne _ _ _ _ (hpw.1 w hw)]
        exact hww.2
      show (revertBuf (buf.set u.index u.old) rest).sum = _
      rw [ih _ hpw.2 hok2, sum_set _ _ _ hu.1]
      show buf.sum + u.old - buf.getD u.index 0 - sumCorrections rest
        = buf.sum - sumCorrections (u :: rest)
      rw [← hu.2]
      show buf.sum + u.old - u.value - sumCorrections rest
        = buf.sum - ((u.value - u.old) + sumCorrections rest)
      ring

theorem validDiff_sum {com : List ℚ} {s : NodeStateData} (hs : ValidDiff com s) :
    com.sum = s.buffer.sum - sumCorrections s.diff := by
  have hcom : revertBuf s.buffer s.diff = com :=
    congrArg NodeStateData.buffer (revertNode_eq hs)
  obtain ⟨hlen, hupd, hpw, hout⟩ := hs
  rw [← hcom]
  apply revertBuf_sum s.buffer s.diff hpw
  intro u hu
  obtain ⟨h1, h2, h3, h4⟩ := hupd u hu
  exact ⟨by rw [hlen]; exact h1, h3⟩

theorem redApplyMuts_out (ms : List (Nat × ℚ)) (s : RedSys) :
    (redApplyMuts ms s).out = s.out := by
  induction ms generalizing s with
  | nil => rfl
  | cons m rest ih => exact ih (redMutate s m.1 m.2)

theorem redApplyMuts_validDiff {com : List ℚ} {s : RedSys}
    (h : ValidDiff com s.pred) (ms : List (Nat × ℚ)) :
    ValidDiff com (redApplyMuts ms s).pred := by
  induction ms generalizing s with
  | nil => exact h
  | cons m rest ih =>
      exact ih (s := redMutate s m.1 m.2) (validDiff_setValue h m.1 m.2)

theorem redClean_pred_validDiff {init : ℚ} {n : Nat} {s : RedSys}
    (hs : RedClean init n s) (ms : List (Nat × ℚ)) :
    ValidDiff s.pred.buffer (redApplyMuts ms s).pred := by
  apply redApplyMuts_validDiff _ ms
  have h3 : s.pred = ⟨s.pred.buffer, []⟩ := by rw [← hs.1]
  rw [h3]
  exact validDiff_nil _

theorem red_round_propagate {init : ℚ} {n : Nat} {s : RedSys}
    (hs : RedClean init n s) (ms : List (Nat × ℚ)) :
    (redPropagate (redApplyMuts ms s)).out.buffer
      = [foldReduce .add init (redApplyMuts ms s).pred.buffer] := by
  have hvd := redClean_pred_validDiff hs ms
  have hout : (redApplyMuts ms s).out
      = ⟨[foldReduce .add init s.pred.buffer], []⟩ := by
    rw [redApplyMuts_out]
    exact hs.2.2
  show (setValue (redApplyMuts ms s).out 0
    ((redApplyMuts ms s).out.buffer.getD 0 0
      + sumCorrections (redApplyMuts ms s).pred.diff)).buffer = _
  rw [hout]
  rw [setValue_buffer]
  have hl : (0 : Nat) < ([foldReduce .add init s.pred.buffer] : List ℚ).length := by simp
  rw [if_pos hl]
  have hsum : s.pred.buffer.sum
      = (redApplyMuts ms s).pred.buffer.sum
        - sumCorrections (redApplyMuts ms s).pred.diff := validDiff_sum hvd
  show [(foldReduce .add init s.pred.buffer)
      + sumCorrections (redApplyMuts ms s).pred.diff] = _
  rw [foldReduce_add, foldReduce_add, hsum]
  congr 1
  ring

theorem red_round_out_validDiff {init : ℚ} {n : Nat} {s : RedSys}
    (hs : RedClean init n s) (ms : List (Nat × ℚ)) :
    ValidDiff [foldReduce .add init s.pred.buffer]
      (redPropagate (redApplyMuts ms s)).out := by
  have hout : (redApplyMuts ms s).out
      = ⟨[foldReduce .add init s.pred.buffer], []⟩ := by
    rw [redApplyMuts_out]
    exact hs.2.2
  show ValidDiff _ (setValue (redApplyMuts ms s).out 0 _)
  rw [hout]
  exact validDiff_setValue (validDiff_nil _) _ _

theorem red_revert_round_id {init : ℚ} {n : Nat} {s : RedSys}
    (hs : RedClean init n s) (ms : List (Nat × ℚ)) :
    redRevert (redPropagate (redApplyMuts ms s)) = s := by
  have hvd := redClean_pred_validDiff hs ms
  have hpred : revertNode (redPropagate (redApplyMuts ms s)).pred = s.pred := by
    show revertNode (redApplyMuts ms s).pred = s.pred
    rw [revertNode_eq hvd]
    rw [show s.pred = ⟨s.pred.buffer, []⟩ from by rw [← hs.1]]
  have hout : revertNode (redPropagate (redApplyMuts ms s)).out = s.out := by
    rw [revertNode_eq (red_round_out_validDiff hs ms)]
    exact hs.2.2.symm
  show RedSys.mk (revertNode (redPropagate (redApplyMuts ms s)).pred)
      (revertNode (redPropagate (redApplyMuts ms s)).out) = s
  rw [hpred, hout]

theorem redClean_commit_round {init : ℚ} {n : Nat} {s : RedSys}
    (hs : RedClean init n s) (ms : List (Nat × ℚ)) :
    RedClean init n (redCommit (redPropagate (redApplyMuts ms s))) := by
  have hvd := redClean_pred_validDiff hs ms
  refine ⟨rfl, ?_, ?_⟩
  · show (redApplyMuts ms s).pred.buffer.length = n
    rw [hvd.1]
    exact hs.2.1
  · show commitNode (redPropagate (redApplyMuts ms s)).out
      = ⟨[foldReduce .add init (redApplyMuts ms s).pred.buffer], []⟩
    unfold commitNode
    rw [red_round_propagate hs ms]

theorem redClean_runRound {init : ℚ} {n : Nat} {s : RedSys}
    (hs : RedClean init n s) (r : List (Nat × ℚ) × Bool) :
    RedClean init n (redRunRound r s) := by
  unfold redRunRound
  by_cases hr : r.2
  · rw [if_pos hr]
    exact redClean_commit_round hs r.1
  · rw [if_neg hr, red_revert_round_id hs r.1]
    exact hs

theorem redClean_runRounds {init : ℚ} {n : Nat} {s : RedSys}
    (hs : RedClean init n s) (rs : List (List (Nat × ℚ) × Bool)) :
    RedClean init n (redRunRounds rs s) := by
  induction rs generalizing s with
  | nil => exact hs
  | cons r rs ih => exact ih (redClean_runRound hs r)

theorem redClean_initializeState (init : ℚ) (buf : List ℚ) :
    RedClean init buf.length (redInitializeState init buf) :=
  ⟨rfl, rfl, rfl⟩

/-- A declared static numeric range of an Array node. -/
structure Bounds where
  lo : ℚ
  hi : ℚ
deriving DecidableEq, Repr

def memBounds (b : Bounds) (x : ℚ) : Prop := b.lo ≤ x ∧ x ≤ b.hi

/-- Modelled from the spec: the `min()`/`max()` bounds a BinaryOpNode
declares at construction, derived analytically from the operand bounds per
operator. The example in the spec reads AddNode.max() = lhs.max() +
rhs.max(); for multiply all four corner products are evaluated; the
comparison and logical operators produce values in the unit range. -/
def cornerBounds (op : BinOp) (a b : Bounds) : Bounds :=
  match op with
  | .add => ⟨a.lo + b.lo, a.hi + b.hi⟩
  | .sub => ⟨a.lo - b.hi, a.hi - b.lo⟩
  | .mul => ⟨min (min (a.lo * b.lo) (a.lo * b.hi)) (min (a.hi * b.lo) (a.hi * b.hi)),
      max (max (a.lo * b.lo) (a.lo * b.hi)) (max (a.hi * b.lo) (a.hi * b.hi))⟩
  | .land => ⟨0, 1⟩
  | .lor => ⟨0, 1⟩
  | .beq => ⟨0, 1⟩
  | .ble => ⟨0, 1⟩
  | .bmax => ⟨max a.lo b.lo, max a.hi b.hi⟩
  | .bmin => ⟨min a.lo b.lo, min a.hi b.hi⟩

theorem mul_segment_left {lo hi y : ℚ} (h1 : lo ≤ y) (h2 : y ≤ hi) (c : ℚ) :
    min (c * lo) (c * hi) ≤ c * y ∧ c * y ≤ max (c * lo) (c * hi) := by
  rcases le_total 0 c with hc | hc
  · exact ⟨le_trans (min_le_left _ _) (mul_le_mul_of_nonneg_left h1 hc),
      le_trans (mul_le_mul_of_nonneg_left h2 hc) (le_max_right _ _)⟩
  · exact ⟨le_trans (min_le_right _ _) (mul_le_mul_of_nonpos_left h2 hc),
      le_trans (mul_le_mul_of_nonpos_left h1 hc) (le_max_left _ _)⟩

theorem mul_segment_right {lo hi x : ℚ} (h1 : lo ≤ x) (h2 : x ≤ hi) (y : ℚ) :
    min (lo * y) (hi * y) ≤ x * y ∧ x * y ≤ max (lo * y) (hi * y) := by
  rcases le_total 0 y with hy | hy
  · exact ⟨le_trans (min_le_left _ _) (mul_le_mul_of_nonneg_right h1 hy),
      le_trans (mul_le_mul_of_nonneg_right h2 hy) (le_max_right _ _)⟩
  · exact ⟨le_trans (min_le_right _ _) (mul_le_mul_of_nonpos_right h2 hy),
      le_trans (mul_le_mul_of_nonpos_right h1 hy) (le_max_left _ _)⟩

theorem binop_bounds_sound (op : BinOp) (a b : Bounds) (x y : ℚ)
    (hx : memBounds a x) (hy : memBounds b y) :
    memBounds (cornerBounds op a b) (op.apply x y) := by
  obtain ⟨hx1, hx2⟩ := hx
  obtain ⟨hy1, hy2⟩ := hy
  cases op with
  | add => exact ⟨add_le_add hx1 hy1, add_le_add hx2 hy2⟩
  | sub => exact ⟨sub_le_sub hx1 hy2, sub_le_sub hx2 hy1⟩
  | mul =>
      constructor
      · calc min (min (a.lo * b.lo) (a.lo * b.hi)) (min (a.hi * b.lo) (a.hi * b.hi))
            ≤ min (a.lo * y) (a.hi * y) :=
              min_le_min (mul_segment_left hy1 hy2 a.lo).1
                (mul_segment_left hy1 hy2 a.hi).1
          _ ≤ x * y := (mul_segment_right hx1 hx2 y).1
      · calc BinOp.apply .mul x y = x * y := rfl
          _ ≤ max (a.lo * y) (a.hi * y) := (mul_segment_right hx1 hx2 y).2
          _ ≤ max (max (a.lo * b.lo) (a.lo * b.hi)) (max (a.hi * b.lo) (a.hi * b.hi)) :=
              max_le_max (mul_segment_left hy1 hy2 a.lo).2
                (mul_segment_left hy1 hy2 a.hi).2
  | land =>
      show memBounds ⟨0, 1⟩ (if x ≠ 0 ∧ y ≠ 0 then (1 : ℚ) else 0)
      split <;> exact ⟨by norm_num, by norm_num⟩
  | lor =>
      show memBounds ⟨0, 1⟩ (if x ≠ 0 ∨ y ≠ 0 then (1 : ℚ) else 0)
      split <;> exact ⟨by norm_num, by norm_num⟩
  | beq =>
      show memBounds ⟨0, 1⟩ (if x = y then (1 : ℚ) else 0)
      split <;> exact ⟨by norm_num, by norm_num⟩
  | ble =>
      show memBounds ⟨0, 1⟩ (if x ≤ y then (1 : ℚ) else 0)
      split <;> exact ⟨by norm_num, by norm_num⟩
  | bmax => exact ⟨max_le_max hx1 hy1, max_le_max hx2 hy2⟩
  | bmin => exact ⟨min_le_min hx1 hy1, min_le_min hx2 hy2⟩

/-- Modelled from the spec: the bounds a UnaryOpNode declares at
construction from its operand bounds, per operator. -/
def unaryBounds : UnaryOp → Bounds → Bounds
  | .negate, a => ⟨-a.hi, -a.lo⟩
  | .abs, a => ⟨if 0 ≤ a.lo then a.lo else if a.hi ≤ 0 then -a.hi else 0,
      max (-a.lo) a.hi⟩
  | .square, a =>
      ⟨(if 0 ≤ a.lo then a.lo else if a.hi ≤ 0 then -a.hi else 0)
        * (if 0 ≤ a.lo then a.lo else if a.hi ≤ 0 then -a.hi else 0),
      max (-a.lo) a.hi * max (-a.lo) a.hi⟩

theorem abs_lower_bound (a : Bounds) (x : ℚ) (hx : memBounds a x) :
    (if 0 ≤ a.lo then a.lo else if a.hi ≤ 0 then -a.hi else 0) ≤ |x| := by
  obtain ⟨h1, h2⟩ := hx
  split
  · rename_i ha
    rw [abs_of_nonneg (le_trans ha h1)]
    exact h1
  · split
    · rename_i ha hb
      rw [abs_of_nonpos (le_trans h2 hb)]
      exact neg_le_neg h2
    · exact abs_nonneg x

theorem abs_upper_bound (a : Bounds) (x : ℚ) (hx : memBounds a x) :
    |x| ≤ max (-a.lo) a.hi := by
  obtain ⟨h1, h2⟩ := hx
  rcases abs_cases x with ⟨he, _⟩ | ⟨he, _⟩
  · rw [he]
    exact le_trans h2 (le_max_right _ _)
  · rw [he]
    exact le_trans (neg_le_neg h1) (le_max_left _ _)

theorem abs_lower_nonneg (a : Bounds) :
    0 ≤ (if 0 ≤ a.lo then a.lo else if a.hi ≤ 0 then -a.hi else 0) := by
  split
  · rename_i h
    exact h
  · split
    · rename_i h1 h2
      simpa using h2
    · exact le_refl 0

theorem unaryop_bounds_sound (f : UnaryOp) (a : Bounds) (x : ℚ)
    (hx : memBounds a x) : memBounds (unaryBounds f a) (f.apply x) := by
  cases f with
  | abs => exact ⟨abs_lower_bound a x hx, abs_upper_bound a x hx⟩
  | negate => exact ⟨neg_le_neg hx.2, neg_le_neg hx.1⟩
  | square =>
      have hl := abs_lower_bound a x hx
      have hh := abs_upper_bound a x hx
      have hl0 := abs_lower_nonneg a
      have hx2 : UnaryOp.apply .square x = |x| * |x| := (abs_mul_abs_self x).symm
      constructor
      · rw [hx2]
        exact mul_le_mul hl hl hl0 (abs_nonneg x)
      · rw [hx2]
        exact mul_le_mul hh hh (abs_nonneg x) (le_trans (abs_nonneg x) hh)

/-- Modelled from the spec: the bounds an NaryOpNode declares from its
operand bounds — the corner bounds folded across the operand list. -/
def naryBounds (op : BinOp) (bs : List Bounds) : Bounds :=
  match bs with
  | [] => ⟨0, 0⟩
  | b :: rest => rest.foldl (cornerBounds op) b

/-- Modelled from the spec: the bounds a ReduceNode over a fixed-length
predecessor declares — the corner bounds folded from the init value across
the predecessor length. -/
def reduceBounds (op : BinOp) (init : ℚ) (predB : Bounds) (n : Nat) : Bounds :=
  (List.replicate n predB).foldl (cornerBounds op) ⟨init, init⟩

theorem foldl_corner_sound (op : BinOp) {bs : List Bounds} {xs : List ℚ}
    (hrel : List.Forall₂ (fun b x => memBounds b x) bs xs)
    {acc : Bounds} {a : ℚ} (ha : memBounds acc a) :
    memBounds (bs.foldl (cornerBounds op) acc) (xs.foldl op.apply a) := by
  induction hrel generalizing acc a with
  | nil => exact ha
  | cons hbx hrest ih => exact ih (binop_bounds_sound op _ _ _ _ ha hbx)

theorem forall₂_replicate {b : Bounds} {l : List ℚ}
    (h : ∀ x ∈ l, memBounds b x) :
    List.Forall₂ (fun b x => memBounds b x) (List.replicate l.length b) l := by
  induction l with
  | nil => exact List.Forall₂.nil
  | cons x xs ih =>
      exact List.Forall₂.cons (h x (List.mem_cons_self x xs))
        (ih (fun y hy => h y (List.mem_cons_of_mem x hy)))

theorem naryG_bounds_sound (op : BinOp) {bs : List Bounds} {xs : List ℚ}
    (hrel : List.Forall₂ (fun b x => memBounds b x) bs xs) (hne : bs ≠ []) :
    memBounds (naryBounds op bs) (naryG op xs) := by
  cases hrel with
  | nil => exact absurd rfl hne
  | cons hbx hrest => exact foldl_corner_sound op hrest hbx

theorem reduce_bounds_sound (op : BinOp) (init : ℚ) (predB : Bounds)
    {buf : List ℚ} (h : ∀ x ∈ buf, memBounds predB x) :
    memBounds (reduceBounds op init predB buf.length) (foldReduce op init buf) :=
  foldl_corner_sound op (forall₂_replicate h) ⟨le_refl init, le_refl init⟩

theorem mem_of_mem_set {α : Type} {l : List α} {i : Nat} {a b : α}
    (h : b ∈ l.set i a) : b ∈ l ∨ b = a := by
  induction l generalizing i with
  | nil => simp at h
  | cons x xs ih =>
      cases i with
      | zero =>
          rcases List.mem_cons.mp h with h1 | h1
          · exact Or.inr h1
          · exact Or.inl (List.mem_cons_of_mem x h1)
      | succ i =>
          rcases List.mem_cons.mp h with h1 | h1
          · exact Or.inl (h1 ▸ List.mem_cons_self x xs)
          · rcases ih h1 with h2 | h2
            · exact Or.inl (List.mem_cons_of_mem x h2)
            · exact Or.inr h2

/-- Every value in every operand buffer satisfies the per-operand
predicate. -/
def OpsVals (Q : Nat → ℚ → Prop) (ops : List NodeStateData) : Prop :=
  ∀ k, k < ops.length → ∀ v ∈ (ops.getD k emptyNodeState).buffer, Q k v

def MutsOk (Q : Nat → ℚ → Prop) (l : List Mut) : Prop :=
  ∀ m ∈ l, Q m.node m.value

def allMuts (rs : List (List Mut × Bool)) (ms : List Mut) : List Mut :=
  (rs.map Prod.fst).flatten ++ ms

theorem setValue_buffer_mem {s : NodeStateData} {i : Nat} {v w : ℚ}
    (hw : w ∈ (setValue s i v).buffer) : w ∈ s.buffer ∨ w = v := by
  rw [setValue_buffer] at hw
  by_cases h : i < s.buffer.length
  · rw [if_pos h] at hw
    exact mem_of_mem_set hw
  · rw [if_neg h] at hw
    exact Or.inl hw

theorem opsVals_mutate {Q : Nat → ℚ → Prop} {ops : List NodeStateData}
    (h : OpsVals Q ops) {m : Mut} (hm : Q m.node m.value) :
    OpsVals Q (mutateOps ops m) := by
  intro k hk v hv
  unfold mutateOps at hk hv
  have hk2 : k < ops.length := by simpa using hk
  by_cases hkm : k = m.node
  · subst hkm
    rw [getD_set_self_gen _ _ _ _ hk2] at hv
    rcases setValue_buffer_mem hv with h1 | h1
    · exact h m.node hk2 v h1
    · exact h1 ▸ hm
  · rw [getD_set_ne_gen _ _ _ _ _ (fun h2 => hkm h2.symm)] at hv
    exact h k hk2 v hv

theorem opsVals_applyMuts {Q : Nat → ℚ → Prop} {s : OpSys}
    (h : OpsVals Q s.ops) {ms : List Mut} (hms : MutsOk Q ms) :
    OpsVals Q (applyMuts ms s).ops := by
  induction ms generalizing s with
  | nil => exact h
  | cons m rest ih =>
      exact ih (s := mutate s m)
        (opsVals_mutate h (hms m (List.mem_cons_self m rest)))
        (fun m2 hm2 => hms m2 (List.mem_cons_of_mem m hm2))

theorem opsVals_commit {Q : Nat → ℚ → Prop} {ops : List NodeStateData}
    (h : OpsVals Q ops) : OpsVals Q (ops.map commitNode) := by
  intro k hk v hv
  have hk2 : k < ops.length := by simpa using hk
  rw [List.getD_eq_getElem _ _ hk, List.getElem_map] at hv
  have := h k hk2 v
  rw [List.getD_eq_getElem _ _ hk2] at this
  exact this hv

theorem opsVals_runRound {g : List ℚ → ℚ} {n : Nat} {Q : Nat → ℚ → Prop}
    {s : OpSys} (hc : Clean g n s) (h : OpsVals Q s.ops)
    {r : List Mut × Bool} (hr : MutsOk Q r.1) :
    OpsVals Q (runRound g r s).ops := by
  unfold runRound
  by_cases h2 : r.2
  · rw [if_pos h2]
    show OpsVals Q (((propagate g (applyMuts r.1 s)).ops).map commitNode)
    rw [propagate_ops]
    exact opsVals_commit (opsVals_applyMuts h hr)
  · rw [if_neg h2, revert_round_id hc r.1]
    exact h

theorem opsVals_runRounds {g : List ℚ → ℚ} {n : Nat} {Q : Nat → ℚ → Prop}
    {s : OpSys} (hc : Clean g n s) (h : OpsVals Q s.ops)
    {rs : List (List Mut × Bool)} (hrs : ∀ r ∈ rs, MutsOk Q r.1) :
    OpsVals Q (runRounds g rs s).ops := by
  induction rs generalizing s with
  | nil => exact h
  | cons r rest ih =>
      exact ih (clean_runRound hc r)
        (opsVals_runRound hc h (hrs r (List.mem_cons_self r rest)))
        (fun r2 hr2 => hrs r2 (List.mem_cons_of_mem r hr2))

theorem opsVals_initializeState {Q : Nat → ℚ → Prop} {g : List ℚ → ℚ}
    {bufs : List (List ℚ)} {n : Nat}
    (h : ∀ k, k < bufs.length → ∀ v ∈ bufs.getD k [], Q k v) :
    OpsVals Q (initializeState g bufs n).ops := by
  intro k hk v hv
  have hk2 : k < bufs.length := by simpa [initializeState] using hk
  have hgd : ((initializeState g bufs n).ops.getD k emptyNodeState).buffer
      = bufs.getD k [] := by
    show ((bufs.map (fun b => (⟨b, []⟩ : NodeStateData))).getD k emptyNodeState).buffer = _
    rw [List.getD_eq_getElem _ _ (by simpa using hk2), List.getElem_map,
      List.getD_eq_getElem _ _ hk2]
  rw [hgd] at hv
  exact h k hk2 v hv

theorem applyMuts_ops_length (ms : List Mut) (s : OpSys) :
    (applyMuts ms s).ops.length = s.ops.length := by
  induction ms generalizing s with
  | nil => rfl
  | cons m rest ih =>
      rw [show applyMuts (m :: rest) s = applyMuts rest (mutate s m) from rfl, ih]
      show (s.ops.set m.node _).length = _
      simp

theorem runRounds_ops_length (g : List ℚ → ℚ) (rs : List (List Mut × Bool))
    (s : OpSys) : (runRounds g rs s).ops.length = s.ops.length := by
  induction rs generalizing s with
  | nil => rfl
  | cons r rest ih =>
      rw [show runRounds g (r :: rest) s = runRounds g rest (runRound g r s) from rfl,
        ih]
      unfold runRound
      by_cases h2 : r.2
      · rw [if_pos h2]
        show (((propagate g (applyMuts r.1 s)).ops).map commitNode).length = _
        rw [List.length_map, propagate_ops, applyMuts_ops_length]
      · rw [if_neg h2]
        show (((propagate g (applyMuts r.1 s)).ops).map revertNode).length = _
        rw [List.length_map, propagate_ops, applyMuts_ops_length]

theorem opsBufs_getD {ops : List NodeStateData} {k : Nat} (hk : k < ops.length) :
    (ops.map (fun o => o.buffer)).getD k [] = (ops.getD k emptyNodeState).buffer := by
  rw [List.getD_eq_getElem _ _ (by simpa using hk), List.getElem_map,
    List.getD_eq_getElem _ _ hk]

theorem fromScratch_vals {g : List ℚ → ℚ} {Q : Nat → ℚ → Prop} {P : ℚ → Prop}
    {bufs : List (List ℚ)} {n : Nat} {L : Nat} (hL : bufs.length = L)
    (hg : ∀ col : List ℚ, col.length = L →
      (∀ k, k < L → Q k (col.getD k 0)) → P (g col))
    (hlen : ∀ b ∈ bufs, b.length = n)
    (hQ : ∀ k, k < bufs.length → ∀ v ∈ bufs.getD k [], Q k v) :
    ∀ v ∈ fromScratch g bufs n, P v := by
  intro v hv
  unfold fromScratch at hv
  obtain ⟨i, hi, rfl⟩ := List.mem_map.mp hv
  have hin : i < n := List.mem_range.mp hi
  apply hg
  · simp [column, hL]
  · intro k hk
    have hk2 : k < bufs.length := by rw [hL]; exact hk
    have hcol : (column bufs i).getD k 0 = (bufs.getD k []).getD i 0 := by
      unfold column
      rw [List.getD_eq_getElem _ _ (by simpa using hk2), List.getElem_map,
        List.getD_eq_getElem _ _ hk2]
    rw [hcol]
    apply hQ k hk2
    rw [List.getD_eq_getElem _ _ hk2]
    have hblen : (bufs[k]).length = n := hlen _ (bufs.getElem_mem hk2)
    rw [List.getD_eq_getElem _ _ (by rw [hblen]; exact hin)]
    exact List.getElem_mem _

/-- A state of the operator subsystem reached by any number of full
rounds, then trailing caller mutations, optionally followed by a
`propagate`: every State the protocol can put the subsystem in. -/
def reachable (g : List ℚ → ℚ) (bufs : List (List ℚ)) (n : Nat)
    (rs : List (List Mut × Bool)) (ms : List Mut) (doProp : Bool) : OpSys :=
  if doProp then propagate g (applyMuts ms (runRounds g rs (initializeState g bufs n)))
  else applyMuts ms (runRounds g rs (initializeState g bufs n))

theorem reachable_out_vals {g : List ℚ → ℚ} {Q : Nat → ℚ → Prop} {P : ℚ → Prop}
    {bufs : List (List ℚ)} {n : Nat}
    (hg : ∀ col : List ℚ, col.length = bufs.length →
      (∀ k, k < bufs.length → Q k (col.getD k 0)) → P (g col))
    (hlen : ∀ b ∈ bufs, b.length = n)
    (hQ0 : ∀ k, k < bufs.length → ∀ v ∈ bufs.getD k [], Q k v)
    (rs : List (List Mut × Bool)) (ms : List Mut) (doProp : Bool)
    (hmut : MutsOk Q (allMuts rs ms)) :
    ∀ v ∈ (reachable g bufs n rs ms doProp).out.buffer, P v := by
  have hc0 := clean_initializeState g bufs n hlen
  have hc := clean_runRounds hc0 rs
  have hov0 := opsVals_initializeState (g := g) (n := n) hQ0
  have hrs_ok : ∀ r ∈ rs, MutsOk Q r.1 := by
    intro r hr m hm
    apply hmut
    unfold allMuts
    exact List.mem_append.mpr
      (Or.inl (List.mem_flatten.mpr ⟨r.1, List.mem_map.mpr ⟨r, hr, rfl⟩, hm⟩))
  have hms_ok : MutsOk Q ms :=
    fun m hm => hmut m (List.mem_append.mpr (Or.inr hm))
  have hov := opsVals_runRounds hc0 hov0 hrs_ok
  have hovm := opsVals_applyMuts hov hms_ok
  have hL0 : (runRounds g rs (initializeState g bufs n)).ops.length
      = bufs.length := by
    rw [runRounds_ops_length]
    show (bufs.map (fun b => (⟨b, []⟩ : NodeStateData))).length = _
    simp
  have hLm : (applyMuts ms (runRounds g rs (initializeState g bufs n))).ops.length
      = bufs.length := by
    rw [applyMuts_ops_length]
    exact hL0
  unfold reachable
  by_cases hp : doProp
  · rw [if_pos hp]
    rw [round_propagate_buffer hc ms]
    apply fromScratch_vals (by simpa using hLm) hg
    · intro b hb
      obtain ⟨o, ho, rfl⟩ := List.mem_map.mp hb
      exact ops_bufLens_applyMuts hc ms o ho
    · intro k hk v hv
      have hk2 : k < (applyMuts ms (runRounds g rs (initializeState g bufs n))).ops.length := by
        simpa using hk
      rw [opsBufs_getD hk2] at hv
      exact hovm k hk2 v hv
  · rw [if_neg hp]
    have hout : (applyMuts ms (runRounds g rs (initializeState g bufs n))).out
        = (runRounds g rs (initializeState g bufs n)).out := applyMuts_out ms _
    rw [hout, hc.2]
    show ∀ v ∈ fromScratch g _ n, P v
    apply fromScratch_vals (by simpa using hL0) hg
    · exact clean_bufLens hc
    · intro k hk v hv
      have hk2 : k < (runRounds g rs (initializeState g bufs n)).ops.length := by
        simpa using hk
      rw [opsBufs_getD hk2] at hv
      exact hov k hk2 v hv

/-- A per-axis extent: fixed, or dynamic (the extent can change between
evaluations). -/
inductive Extent
  | fixed (e : Nat)
  | dyn
deriving DecidableEq, Repr

def Extent.isDynamic : Extent → Bool
  | .dyn => true
  | .fixed _ => false

def shapeHasDynamicAxis (sh : List Extent) : Bool := sh.any Extent.isDynamic

/-- Modelled from the spec: ReduceNode derives from ScalarOutputMixin —
its output is a single scalar, a rank-0 shape with no axes at all. -/
def scalarOutputShape : List Extent := []

/-- The Array capability of a predecessor as seen by a constructor: its
shape. A `Node*` that does not implement Array dynamic-casts to null,
modelled as `none` at use sites. -/
structure ArrayRef where
  shape : List Extent
deriving DecidableEq, Repr

def ArrayRef.dynamic (a : ArrayRef) : Bool := shapeHasDynamicAxis a.shape

inductive CtorError
  | nullDereference
  | invalidArgument
deriving DecidableEq, Repr

/-- The ArrayOutputMixin base-class member initializer of UnaryOpNode:
it evaluates node_ptr->shape() BEFORE the constructor body runs, so on a
null pointer it is a null dereference (undefined behavior), not a thrown
exception. mathematical.hpp lines 178 to 179. -/
def arrayOutputMixinShape (node_ptr : Option ArrayRef) :
    Except CtorError (List Extent) :=
  match node_ptr with
  | none => Except.error CtorError.nullDereference
  | some a => Except.ok a.shape

/-- Embeds UnaryOpNode::UnaryOpNode(ArrayNode*), mathematical.hpp lines
178 to 185: the member-initializer list runs ArrayOutputMixin(
node_ptr->shape()) first, then the body checks the stored pointer and
throws std::invalid_argument if it is null. The Node* overload (line 185)
passes a non-Array predecessor here as the null result of dynamic_cast. -/
def unaryOpNodeCtor (node_ptr : Option ArrayRef) :
    Except CtorError (List Extent) :=
  (arrayOutputMixinShape node_ptr).bind (fun shp =>
    if node_ptr.isNone then Except.error CtorError.invalidArgument
    else Except.ok shp)

/-- Embeds ReduceNode::ReduceNode(ArrayNode*, double), mathematical.hpp
lines 124 to 132: the initializer list only stores the pointer and the
init value; the body checks the pointer and throws std::invalid_argument
when it is null (as produced by dynamic_cast from a non-Array Node*). -/
def reduceNodeCtorWithInit (node_ptr : Option ArrayRef) (init : ℚ) :
    Except CtorError (ArrayRef × ℚ) :=
  match node_ptr with
  | none => Except.error CtorError.invalidArgument
  | some a => Except.ok (a, init)

/-- The reduce operators that have a well-defined identity: 1 for
logical-and (AllNode) and multiplies (ProdNode), 0 for plus (SumNode);
functional::max and functional::min have none. -/
def reduceIdentity : BinOp → Option ℚ
  | .land => some 1
  | .mul => some 1
  | .add => some 0
  | _ => none

/-- Modelled from the spec: ReduceNode::ReduceNode(ArrayNode*) without an
explicit init (mathematical.hpp lines 134 to 139) — the identity is
auto-supplied when the operator has one; for MaxNode/MinNode over a
dynamic-length, possibly-empty array there is no well-defined value and
construction fails with invalid-argument; a null (non-Array) predecessor
also fails. -/
def reduceNodeCtorNoInit (op : BinOp) (node_ptr : Option ArrayRef) :
    Except CtorError (ArrayRef × Option ℚ) :=
  match node_ptr with
  | none => Except.error CtorError.invalidArgument
  | some a =>
      match reduceIdentity op with
      | some v => Except.ok (a, some v)
      | none =>
          if a.dynamic then Except.error CtorError.invalidArgument
          else Except.ok (a, none)

/-- Modelled from the spec: BinaryOpNode::BinaryOpNode(Node*, Node*)
(mathematical.hpp lines 53 to 54) requires exactly two predecessors that
are Arrays of the same shape, and fails with invalid-argument
otherwise. -/
def binaryOpNodeCtor (a_ptr b_ptr : Option ArrayRef) :
    Except CtorError (List Extent) :=
  match a_ptr, b_ptr with
  | some a, some b =>
      if a.shape = b.shape then Except.ok a.shape
      else Except.error CtorError.invalidArgument
  | _, _ => Except.error CtorError.invalidArgument

/-- The shared shape and operand count of an NaryOpNode. -/
structure NaryOpNodeData where
  shape : List Extent
  operands : Nat
deriving DecidableEq, Repr

/-- Modelled from the spec: NaryOpNode::add_node (mathematical.hpp line
99, nodes.pxd lines 113 to 123) appends a further operand; it fails with
invalid-argument when the new operand is not an Array or its shape does
not match the shape shared by the existing operands. -/
def NaryOpNode.add_node (cfg : NaryOpNodeData) (node_ptr : Option ArrayRef) :
    Except CtorError NaryOpNodeData :=
  match node_ptr with
  | none => Except.error CtorError.invalidArgument
  | some a =>
      if a.shape = cfg.shape then Except.ok ⟨cfg.shape, cfg.operands + 1⟩
      else Except.error CtorError.invalidArgument

/-- Modelled from the spec: integral() of a BinaryOpNode — the comparison
and logical operators always produce whole numbers (the double conversion
of a bool); the arithmetic operators are integral when both operands
are. -/
def BinOp.integral (op : BinOp) (lhs_integral rhs_integral : Bool) : Bool :=
  match op with
  | .land => true
  | .lor => true
  | .beq => true
  | .ble => true
  | _ => lhs_integral && rhs_integral

/-- Any single operation a caller or the engine can apply to the
ReduceNode subsystem within a State. -/
inductive RedStep
  | write (i : Nat) (v : ℚ)
  | prop
  | commitStep
  | revertStep
deriving DecidableEq, Repr

def redStepApply (s : RedSys) : RedStep → RedSys
  | .write i v => redMutate s i v
  | .prop => redPropagate s
  | .commitStep => redCommit s
  | .revertStep => redRevert s

def redRun (steps : List RedStep) (s : RedSys) : RedSys :=
  steps.foldl redStepApply s

theorem redRun_out_length (steps : List RedStep) (s : RedSys) :
    (redRun steps s).out.buffer.length = s.out.buffer.length := by
  induction steps generalizing s with
  | nil => rfl
  | cons st rest ih =>
      rw [show redRun (st :: rest) s = redRun rest (redStepApply s st) from rfl, ih]
      cases st with
      | write i v => rfl
      | prop => exact setValue_length _ _ _
      | commitStep => rfl
      | revertStep => exact revertBuf_length _ _

/-- A state of the SumNode subsystem reached by full rounds, trailing
mutations, optionally a `propagate`. -/
def redReachable (init : ℚ) (b : List ℚ) (rs : List (List (Nat × ℚ) × Bool))
    (ms : List (Nat × ℚ)) (doProp : Bool) : RedSys :=
  if doProp then
    redPropagate (redApplyMuts ms (redRunRounds rs (redInitializeState init b)))
  else redApplyMuts ms (redRunRounds rs (redInitializeState init b))

def RedMutsOk (P : ℚ → Prop) (l : List (Nat × ℚ)) : Prop := ∀ m ∈ l, P m.2

def redAllMuts (rs : List (List (Nat × ℚ) × Bool)) (ms : List (Nat × ℚ)) :
    List (Nat × ℚ) :=
  (rs.map Prod.fst).flatten ++ ms

theorem predVals_applyMuts {P : ℚ → Prop} {s : RedSys}
    (h : ∀ v ∈ s.pred.buffer, P v) {ms : List (Nat × ℚ)}
    (hms : RedMutsOk P ms) :
    ∀ v ∈ (redApplyMuts ms s).pred.buffer, P v := by
  induction ms generalizing s with
  | nil => exact h
  | cons m rest ih =>
      refine ih (s := redMutate s m.1 m.2) ?_
        (fun m2 hm2 => hms m2 (List.mem_cons_of_mem m hm2))
      intro v hv
      rcases setValue_buffer_mem hv with h1 | h1
      · exact h v h1
      · exact h1 ▸ hms m (List.mem_cons_self m rest)

theorem predVals_runRound {init : ℚ} {n : Nat} {P : ℚ → Prop} {s : RedSys}
    (hc : RedClean init n s) (h : ∀ v ∈ s.pred.buffer, P v)
    {r : List (Nat × ℚ) × Bool} (hr : RedMutsOk P r.1) :
    ∀ v ∈ (redRunRound r s).pred.buffer, P v := by
  unfold redRunRound
  by_cases h2 : r.2
  · rw [if_pos h2]
    show ∀ v ∈ (commitNode (redPropagate (redApplyMuts r.1 s)).pred).buffer, P v
    show ∀ v ∈ (redApplyMuts r.1 s).pred.buffer, P v
    exact predVals_applyMuts h hr
  · rw [if_neg h2, red_revert_round_id hc r.1]
    exact h

theorem predVals_runRounds {init : ℚ} {n : Nat} {P : ℚ → Prop} {s : RedSys}
    (hc : RedClean init n s) (h : ∀ v ∈ s.pred.buffer, P v)
    {rs : List (List (Nat × ℚ) × Bool)} (hrs : ∀ r ∈ rs, RedMutsOk P r.1) :
    ∀ v ∈ (redRunRounds rs s).pred.buffer, P v := by
  induction rs generalizing s with
  | nil => exact h
  | cons r rest ih =>
      exact ih (redClean_runRound hc r)
        (predVals_runRound hc h (hrs r (List.mem_cons_self r rest)))
        (fun r2 hr2 => hrs r2 (List.mem_cons_of_mem r hr2))

theorem red_reachable_out_vals {init : ℚ} {b : List ℚ} {predB : Bounds}
    (hb : ∀ v ∈ b, memBounds predB v)
    (rs : List (List (Nat × ℚ) × Bool)) (ms : List (Nat × ℚ)) (doProp : Bool)
    (hmut : RedMutsOk (memBounds predB) (redAllMuts rs ms)) :
    ∀ v ∈ (redReachable init b rs ms doProp).out.buffer,
      memBounds (reduceBounds .add init predB b.length) v := by
  have hc := redClean_runRounds (redClean_initializeState init b) rs
  have hrs_ok : ∀ r ∈ rs, RedMutsOk (memBounds predB) r.1 := by
    intro r hr m hm
    apply hmut
    unfold redAllMuts
    exact List.mem_append.mpr
      (Or.inl (List.mem_flatten.mpr ⟨r.1, List.mem_map.mpr ⟨r, hr, rfl⟩, hm⟩))
  have hms_ok : RedMutsOk (memBounds predB) ms :=
    fun m hm => hmut m (List.mem_append.mpr (Or.inr hm))
  have hpv0 := predVals_runRounds (redClean_initializeState init b) hb hrs_ok
  have hpv := predVals_applyMuts hpv0 hms_ok
  have hvd := redClean_pred_validDiff hc ms
  have hplen : (redApplyMuts ms (redRunRounds rs (redInitializeState init b))).pred.buffer.length
      = b.length := by
    rw [hvd.1]
    exact hc.2.1
  unfold redReachable
  by_cases hp : doProp
  · rw [if_pos hp]
    rw [red_round_propagate hc ms]
    intro v hv
    have hv2 : v = foldReduce .add init
        (redApplyMuts ms (redRunRounds rs (redInitializeState init b))).pred.buffer := by
      simpa using hv
    rw [hv2, ← hplen]
    exact reduce_bounds_sound .add init predB hpv
  · rw [if_neg hp]
    rw [redApplyMuts_out, hc.2.2]
    intro v hv
    have hv2 : v = foldReduce .add init
        (redRunRounds rs (redInitializeState init b)).pred.buffer := by
      simpa using hv
    have hplen0 : (redRunRounds rs (redInitializeState init b)).pred.buffer.length
        = b.length := hc.2.1
    rw [hv2, ← hplen0]
    exact reduce_bounds_sound .add init predB hpv0

theorem c1_elementwise (g : List ℚ → ℚ) (bufs : List (List ℚ)) (n : Nat)
    (hb : ∀ b ∈ bufs, b.length = n) (rs : List (List Mut × Bool)) (ms : List Mut) :
    (propagate g (applyMuts ms (runRounds g rs (initializeState g bufs n)))).out.buffer
      = (initializeState g
          ((propagate g (applyMuts ms (runRounds g rs
            (initializeState g bufs n)))).ops.map (fun o => o.buffer)) n).out.buffer := by
  have hc := clean_runRounds (clean_initializeState g bufs n hb) rs
  have key := round_propagate_buffer hc ms
  show _ = fromScratch g _ n
  rw [propagate_ops]
  exact key

/-- Claim C1: for every operator node kind (Unary, Binary, Nary, Reduce)
and any sequence of decision-variable mutations and propagate calls in a
State, after propagate the node's buff(state) equals the buffer a
from-scratch evaluation (initialize_state on the final decision-variable
values) would produce. Mutation/propagate sequences follow the protocol:
full rounds (mutations, propagate, commit-or-revert) then trailing
mutations and the propagate under scrutiny; the Reduce representative is
SumNode with its incremental correction propagate. -/
theorem claim_C1_incremental_matches_fromScratch :
    (∀ (f : UnaryOp) (b : List ℚ) (rs : List (List Mut × Bool)) (ms : List Mut),
      (propagate (unaryG f) (applyMuts ms (runRounds (unaryG f) rs
        (initializeState (unaryG f) [b] b.length)))).out.buffer
        = (initializeState (unaryG f)
            ((propagate (unaryG f) (applyMuts ms (runRounds (unaryG f) rs
              (initializeState (unaryG f) [b] b.length)))).ops.map
              (fun o => o.buffer)) b.length).out.buffer)
    ∧ (∀ (f : BinOp) (a b : List ℚ), a.length = b.length →
        ∀ (rs : List (List Mut × Bool)) (ms : List Mut),
      (propagate (binaryG f) (applyMuts ms (runRounds (binaryG f) rs
        (initializeState (binaryG f) [a, b] a.length)))).out.buffer
        = (initializeState (binaryG f)
            ((propagate (binaryG f) (applyMuts ms (runRounds (binaryG f) rs
              (initializeState (binaryG f) [a, b] a.length)))).ops.map
              (fun o => o.buffer)) a.length).out.buffer)
    ∧ (∀ (f : BinOp) (bufs : List (List ℚ)) (n : Nat),
        (∀ b ∈ bufs, b.length = n) →
        ∀ (rs : List (List Mut × Bool)) (ms : List Mut),
      (propagate (naryG f) (applyMuts ms (runRounds (naryG f) rs
        (initializeState (naryG f) bufs n)))).out.buffer
        = (initializeState (naryG f)
            ((propagate (naryG f) (applyMuts ms (runRounds (naryG f) rs
              (initializeState (naryG f) bufs n)))).ops.map
              (fun o => o.buffer)) n).out.buffer)
    ∧ (∀ (init : ℚ) (b : List ℚ) (rs : List (List (Nat × ℚ) × Bool))
        (ms : List (Nat × ℚ)),
      (redPropagate (redApplyMuts ms (redRunRounds rs
        (redInitializeState init b)))).out.buffer
        = (redInitializeState init
            ((redApplyMuts ms (redRunRounds rs
              (redInitializeState init b))).pred.buffer)).out.buffer) := by
  refine ⟨?_, ?_, ?_, ?_⟩
  · intro f b rs ms
    exact c1_elementwise (unaryG f) [b] b.length (by simp) rs ms
  · intro f a b hab rs ms
    refine c1_elementwise (binaryG f) [a, b] a.length ?_ rs ms
    intro c hc
    rcases List.mem_cons.mp hc with rfl | hc2
    · rfl
    · rcases List.mem_cons.mp hc2 with rfl | hc3
      · exact hab.symm
      · simp at hc3
  · intro f bufs n hb rs ms
    exact c1_elementwise (naryG f) bufs n hb rs ms
  · intro init b rs ms
    have hc := redClean_runRounds (redClean_initializeState init b) rs
    exact red_round_propagate hc ms

/-- Witness for C1, the spec's own example: AddNode over [1,2,3] and
[10,20,30], mutate left index 1 to 5, propagate. -/
theorem claim_C1_witness :
    ([1, 2, 3] : List ℚ).length = ([10, 20, 30] : List ℚ).length
    ∧ (propagate (binaryG AddNode) (applyMuts [⟨0, 1, 5⟩]
        (runRounds (binaryG AddNode) []
          (initializeState (binaryG AddNode) [[1, 2, 3], [10, 20, 30]] 3)))).out.buffer
      = (initializeState (binaryG AddNode)
          ((propagate (binaryG AddNode) (applyMuts [⟨0, 1, 5⟩]
            (runRounds (binaryG AddNode) []
              (initializeState (binaryG AddNode) [[1, 2, 3], [10, 20, 30]] 3)))).ops.map
            (fun o => o.buffer)) 3).out.buffer :=
  ⟨rfl, claim_C1_incremental_matches_fromScratch.2.1 AddNode [1, 2, 3] [10, 20, 30]
    rfl [] [⟨0, 1, 5⟩]⟩

/-- Claim C2 counterexample: in the AddNode system over committed buffers
[2] and [3], mutate the left decision variable to 5, then propagate, then
revert. The left node (an Array-capable node) held [5] immediately before
propagate, yet after propagate-then-revert it holds [2], the
last-committed value — so revert does not restore "the values it held
immediately before propagate" for a mutated decision-variable node. -/
theorem claim_C2_counterexample :
    ((mutate (initializeState (binaryG AddNode) [[2], [3]] 1) ⟨0, 0, 5⟩).ops.getD 0
      emptyNodeState).buffer = [5]
    ∧ ((revertSys (propagate (binaryG AddNode)
        (mutate (initializeState (binaryG AddNode) [[2], [3]] 1) ⟨0, 0, 5⟩))).ops.getD 0
        emptyNodeState).buffer = [2]
    ∧ ([5] : List ℚ) ≠ [2] := by decide

/-- Claim C2 (amended): propagate followed by revert restores every
node's buffer bit-for-bit to the last-committed values and leaves every
diff empty; for the operator node — whose buffer changes only during
propagate — these are exactly the values held immediately before
propagate, while a directly-mutated decision-variable node returns to its
last-committed (not its mutated pre-propagate) values. -/
theorem claim_C2_revert_restores_committed :
    (∀ (g : List ℚ → ℚ) (bufs : List (List ℚ)) (n : Nat),
      (∀ b ∈ bufs, b.length = n) →
      ∀ (rs : List (List Mut × Bool)) (ms : List Mut),
        revertSys (propagate g (applyMuts ms (runRounds g rs
          (initializeState g bufs n))))
          = runRounds g rs (initializeState g bufs n)
        ∧ (revertSys (propagate g (applyMuts ms (runRounds g rs
            (initializeState g bufs n))))).out.buffer
          = (applyMuts ms (runRounds g rs (initializeState g bufs n))).out.buffer
        ∧ (∀ o ∈ (revertSys (propagate g (applyMuts ms (runRounds g rs
            (initializeState g bufs n))))).ops, o.diff = [])
        ∧ (revertSys (propagate g (applyMuts ms (runRounds g rs
            (initializeState g bufs n))))).out.diff = [])
    ∧ (∀ (init : ℚ) (b : List ℚ) (rs : List (List (Nat × ℚ) × Bool))
        (ms : List (Nat × ℚ)),
        redRevert (redPropagate (redApplyMuts ms (redRunRounds rs
          (redInitializeState init b))))
          = redRunRounds rs (redInitializeState init b)
        ∧ (redRevert (redPropagate (redApplyMuts ms (redRunRounds rs
            (redInitializeState init b))))).out.buffer
          = (redApplyMuts ms (redRunRounds rs (redInitializeState init b))).out.buffer
        ∧ (redRevert (redPropagate (redApplyMuts ms (redRunRounds rs
            (redInitializeState init b))))).pred.diff = []
        ∧ (redRevert (redPropagate (redApplyMuts ms (redRunRounds rs
            (redInitializeState init b))))).out.diff = []) := by
  constructor
  · intro g bufs n hb rs ms
    have hc := clean_runRounds (clean_initializeState g bufs n hb) rs
    have hid := revert_round_id hc ms
    refine ⟨hid, ?_, ?_, ?_⟩
    · rw [hid, applyMuts_out]
    · rw [hid]
      intro o ho
      exact (hc.1 o ho).1
    · rw [hid, hc.2]
  · intro init b rs ms
    have hc := redClean_runRounds (redClean_initializeState init b) rs
    have hid := red_revert_round_id hc ms
    refine ⟨hid, ?_, ?_, ?_⟩
    · rw [hid, redApplyMuts_out]
    · rw [hid, hc.1]
    · rw [hid, hc.2.2]

/-- Witness for the amended C2 at the concrete counterexample input:
propagate-then-revert equals the pre-round state. -/
theorem claim_C2_witness :
    revertSys (propagate (binaryG AddNode) (applyMuts [⟨0, 0, 5⟩]
      (runRounds (binaryG AddNode) []
        (initializeState (binaryG AddNode) [[2], [3]] 1))))
      = runRounds (binaryG AddNode) []
        (initializeState (binaryG AddNode) [[2], [3]] 1) :=
  (claim_C2_revert_restores_committed.1 (binaryG AddNode) [[2], [3]] 1
    (by decide) [] [⟨0, 0, 5⟩]).1

theorem map_commitNode_buffer (l : List NodeStateData) :
    (l.map commitNode).map (fun o => o.buffer) = l.map (fun o => o.buffer) := by
  induction l with
  | nil => rfl
  | cons o rest ih =>
      simp only [List.map_cons]
      rw [ih]
      rfl

theorem map_commitNode_idem (l : List NodeStateData) :
    (l.map commitNode).map commitNode = l.map commitNode := by
  induction l with
  | nil => rfl
  | cons o rest ih =>
      simp only [List.map_cons]
      rw [ih]
      rfl

/-- Claim C3: committing twice in succession leaves every node's buffer
unchanged by both calls and leaves the diff empty after each call. -/
theorem claim_C3_commit_idempotent :
    (∀ s : OpSys,
      (commitSys s).ops.map (fun o => o.buffer) = s.ops.map (fun o => o.buffer)
      ∧ (commitSys s).out.buffer = s.out.buffer
      ∧ commitSys (commitSys s) = commitSys s
      ∧ (∀ o ∈ (commitSys s).ops, o.diff = [])
      ∧ (commitSys s).out.diff = []
      ∧ (∀ o ∈ (commitSys (commitSys s)).ops, o.diff = [])
      ∧ (commitSys (commitSys s)).out.diff = [])
    ∧ (∀ t : RedSys,
      (redCommit t).pred.buffer = t.pred.buffer
      ∧ (redCommit t).out.buffer = t.out.buffer
      ∧ redCommit (redCommit t) = redCommit t
      ∧ (redCommit t).pred.diff = []
      ∧ (redCommit t).out.diff = []) := by
  constructor
  · intro s
    refine ⟨map_commitNode_buffer s.ops, rfl, ?_, ?_, rfl, ?_, rfl⟩
    · show OpSys.mk ((s.ops.map commitNode).map commitNode)
        (commitNode (commitNode s.out))
        = OpSys.mk (s.ops.map commitNode) (commitNode s.out)
      rw [map_commitNode_idem]
      rfl
    · intro o ho
      obtain ⟨o2, _, rfl⟩ := List.mem_map.mp ho
      rfl
    · intro o ho
      obtain ⟨o2, _, rfl⟩ := List.mem_map.mp
        (show o ∈ ((s.ops.map commitNode).map commitNode) from ho)
      rfl
  · intro t
    exact ⟨rfl, rfl, rfl, rfl, rfl⟩

/-- Witness for C3 at a concrete state with a pending diff. -/
theorem claim_C3_witness :
    commitSys (commitSys ⟨[⟨[1], []⟩], ⟨[2], [⟨0, 1, 2⟩]⟩⟩)
      = commitSys ⟨[⟨[1], []⟩], ⟨[2], [⟨0, 1, 2⟩]⟩⟩
    ∧ (commitSys ⟨[⟨[1], []⟩], ⟨[2], [⟨0, 1, 2⟩]⟩⟩).out.diff = [] :=
  ⟨(claim_C3_commit_idempotent.1 ⟨[⟨[1], []⟩], ⟨[2], [⟨0, 1, 2⟩]⟩⟩).2.2.1,
    (claim_C3_commit_idempotent.1 ⟨[⟨[1], []⟩], ⟨[2], [⟨0, 1, 2⟩]⟩⟩).2.2.2.2.1⟩

/-- A sequence of caller writes to one node within one round. -/
def applyWrites (ws : List (Nat × ℚ)) (s : NodeStateData) : NodeStateData :=
  ws.foldl (fun s w => setValue s w.1 w.2) s

theorem validDiff_applyWrites {com : List ℚ} {s : NodeStateData}
    (h : ValidDiff com s) (ws : List (Nat × ℚ)) :
    ValidDiff com (applyWrites ws s) := by
  induction ws generalizing s with
  | nil => exact h
  | cons w rest ih => exact ih (validDiff_setValue h w.1 w.2)

/-- Claim C4: within one round the diff is coalesced — after any sequence
of writes starting from a committed buffer, each linear index carries at
most one Update, every Update records the last-committed value against
the current pending value and an actual change, and an index whose value
equals its committed value carries no Update at all. -/
theorem claim_C4_diff_coalescing (com : List ℚ) (ws : List (Nat × ℚ)) :
    (applyWrites ws ⟨com, []⟩).diff.Pairwise (fun u w => u.index ≠ w.index)
    ∧ (∀ u ∈ (applyWrites ws ⟨com, []⟩).diff,
        u.old = com.getD u.index 0
        ∧ u.value = (applyWrites ws ⟨com, []⟩).buffer.getD u.index 0
        ∧ u.old ≠ u.value)
    ∧ (∀ i, i < com.length →
        (applyWrites ws ⟨com, []⟩).buffer.getD i 0 = com.getD i 0 →
        ∀ u ∈ (applyWrites ws ⟨com, []⟩).diff, u.index ≠ i) := by
  obtain ⟨hlen, hupd, hpw, hout⟩ := validDiff_applyWrites (validDiff_nil com) ws
  refine ⟨hpw, ?_, ?_⟩
  · intro u hu
    obtain ⟨h1, h2, h3, h4⟩ := hupd u hu
    exact ⟨h2, h3, h4⟩
  · intro i hi heq u hu hcontra
    obtain ⟨h1, h2, h3, h4⟩ := hupd u hu
    subst hcontra
    apply h4
    rw [h2, h3]
    exact heq.symm

/-- Witness for C4: writes (0 to 5), (1 to 7), (1 back to 2) over
committed [1, 2]: index 1 returned to its committed value, so no Update
with index 1 remains; the surviving Update for index 0 is one concrete
record. -/
theorem claim_C4_witness :
    ((1 : Nat) < ([1, 2] : List ℚ).length)
    ∧ (⟨0, 1, 5⟩ : Update).index ≠ 1 :=
  ⟨by decide,
    (claim_C4_diff_coalescing [1, 2] [(0, 5), (1, 7), (1, 2)]).2.2 1 (by decide)
      (by decide) ⟨0, 1, 5⟩ (by decide)⟩

theorem forall₂_of_getD {bs : List Bounds} {xs : List ℚ}
    (hlen : xs.length = bs.length)
    (hp : ∀ k, k < bs.length → memBounds (bs.getD k ⟨0, 0⟩) (xs.getD k 0)) :
    List.Forall₂ (fun b x => memBounds b x) bs xs := by
  induction bs generalizing xs with
  | nil =>
      cases xs with
      | nil => exact List.Forall₂.nil
      | cons x xs => simp at hlen
  | cons B rest ih =>
      cases xs with
      | nil => simp at hlen
      | cons x xs =>
          refine List.Forall₂.cons (hp 0 (by simp)) (ih (by simpa using hlen) ?_)
          intro k hk
          exact hp (k + 1) (by simpa using hk)

/-- Per-operand value predicate: the value lies within the k-th declared
operand bounds. -/
def QB (bs : List Bounds) : Nat → ℚ → Prop :=
  fun k v => memBounds (bs.getD k ⟨0, 0⟩) v

instance memBounds.instDecidable (b : Bounds) (x : ℚ) : Decidable (memBounds b x) :=
  inferInstanceAs (Decidable (b.lo ≤ x ∧ x ≤ b.hi))

instance QB.instDecidable (bs : List Bounds) (k : Nat) (v : ℚ) :
    Decidable (QB bs k v) :=
  inferInstanceAs (Decidable (memBounds (bs.getD k ⟨0, 0⟩) v))

instance MutsOk.instDecidable (Q : Nat → ℚ → Prop) [∀ k v, Decidable (Q k v)]
    (l : List Mut) : Decidable (MutsOk Q l) :=
  inferInstanceAs (Decidable (∀ m ∈ l, Q m.node m.value))

/-- Claim C5: for every operator node and all predecessor buffer values
within the predecessors' declared bounds (initial seeds and all later
mutations), every value the node's buffer ever holds lies within the
node's own bounds as derived at construction from the operator semantics
and the predecessor bounds (AddNode's upper bound is lhs.max plus
rhs.max; multiply evaluates all four corner products; the fold bounds of
Nary and Reduce nodes iterate the binary corner bounds). -/
theorem claim_C5_bounds_soundness :
    (∀ (f : UnaryOp) (aB : Bounds) (a : List ℚ), (∀ v ∈ a, memBounds aB v) →
      ∀ (rs : List (List Mut × Bool)) (ms : List Mut) (doProp : Bool),
        MutsOk (QB [aB]) (allMuts rs ms) →
        ∀ v ∈ (reachable (unaryG f) [a] a.length rs ms doProp).out.buffer,
          memBounds (unaryBounds f aB) v)
    ∧ (∀ (f : BinOp) (aB bB : Bounds) (a b : List ℚ), a.length = b.length →
        (∀ v ∈ a, memBounds aB v) → (∀ v ∈ b, memBounds bB v) →
        ∀ (rs : List (List Mut × Bool)) (ms : List Mut) (doProp : Bool),
          MutsOk (QB [aB, bB]) (allMuts rs ms) →
          ∀ v ∈ (reachable (binaryG f) [a, b] a.length rs ms doProp).out.buffer,
            memBounds (cornerBounds f aB bB) v)
    ∧ (∀ (f : BinOp) (bs : List Bounds) (bufs : List (List ℚ)) (n : Nat),
        bufs ≠ [] → bufs.length = bs.length →
        (∀ b ∈ bufs, b.length = n) →
        (∀ k, k < bufs.length → ∀ v ∈ bufs.getD k [], memBounds (bs.getD k ⟨0, 0⟩) v) →
        ∀ (rs : List (List Mut × Bool)) (ms : List Mut) (doProp : Bool),
          MutsOk (QB bs) (allMuts rs ms) →
          ∀ v ∈ (reachable (naryG f) bufs n rs ms doProp).out.buffer,
            memBounds (naryBounds f bs) v)
    ∧ (∀ (init : ℚ) (predB : Bounds) (b : List ℚ), (∀ v ∈ b, memBounds predB v) →
        ∀ (rs : List (List (Nat × ℚ) × Bool)) (ms : List (Nat × ℚ)) (doProp : Bool),
          RedMutsOk (memBounds predB) (redAllMuts rs ms) →
          ∀ v ∈ (redReachable init b rs ms doProp).out.buffer,
            memBounds (reduceBounds .add init predB b.length) v)
    ∧ (∀ (op : BinOp) (init : ℚ) (predB : Bounds) (buf : List ℚ),
        (∀ v ∈ buf, memBounds predB v) →
        memBounds (reduceBounds op init predB buf.length) (foldReduce op init buf)) := by
  refine ⟨?_, ?_, ?_, ?_, ?_⟩
  · intro f aB a ha rs ms doProp hmut
    apply reachable_out_vals (Q := QB [aB]) (P := memBounds (unaryBounds f aB))
    · intro col hcol hq
      exact unaryop_bounds_sound f aB (col.getD 0 0) (hq 0 (by simp))
    · intro c hc
      rcases List.mem_cons.mp hc with rfl | hc2
      · rfl
      · simp at hc2
    · intro k hk v hv
      have hk0 : k = 0 := by simpa using hk
      subst hk0
      exact ha v hv
    · exact hmut
  · intro f aB bB a b hab ha hb rs ms doProp hmut
    apply reachable_out_vals (Q := QB [aB, bB]) (P := memBounds (cornerBounds f aB bB))
    · intro col hcol hq
      exact binop_bounds_sound f aB bB (col.getD 0 0) (col.getD 1 0)
        (hq 0 (by simp)) (hq 1 (by simp))
    · intro c hc
      rcases List.mem_cons.mp hc with rfl | hc2
      · rfl
      · rcases List.mem_cons.mp hc2 with rfl | hc3
        · exact hab.symm
        · simp at hc3
    · intro k hk v hv
      have hk2 : k < 2 := by simpa using hk
      match k, hk2 with
      | 0, _ => exact ha v hv
      | 1, _ => exact hb v hv
    · exact hmut
  · intro f bs bufs n hne hlen hbl hbv rs ms doProp hmut
    apply reachable_out_vals (Q := QB bs) (P := memBounds (naryBounds f bs))
    · intro col hcol hq
      apply naryG_bounds_sound f
      · apply forall₂_of_getD (by rw [hcol, hlen])
        intro k hk
        exact hq k (by rw [hlen]; exact hk)
      · intro hbs
        apply hne
        rw [← List.length_eq_zero]
        rw [hlen, hbs]
        rfl
    · exact hbl
    · exact hbv
    · exact hmut
  · intro init predB b hb rs ms doProp hmut
    exact red_reachable_out_vals hb rs ms doProp hmut
  · intro op init predB buf h
    exact reduce_bounds_sound op init predB h

/-- Witness for C5: the MaximumNode system over [1,2,3] within [0,10] and
[10,20,30] within [0,40], after mutating left index 1 to 5 and
propagating, holds 20 at index 1 — within the declared range [0,40]. -/
theorem claim_C5_witness :
    memBounds (cornerBounds MaximumNode ⟨0, 10⟩ ⟨0, 40⟩) 20 :=
  (claim_C5_bounds_soundness.2.1 MaximumNode ⟨0, 10⟩ ⟨0, 40⟩ [1, 2, 3] [10, 20, 30]
    rfl (by decide) (by decide) [] [⟨0, 1, 5⟩] true (by decide)) 20 (by decide)

/-- Claim C6: constructing a ReduceNode without an explicit init succeeds
for every operator with a well-defined identity (AllNode, ProdNode,
SumNode) whether or not the predecessor array is dynamic; for
MaxNode/MinNode it fails exactly when the predecessor is a dynamic-length,
possibly-empty array; and with an explicit init supplied construction
succeeds for every operator and predecessor array. -/
theorem claim_C6_reduce_init_rules :
    (∀ op : BinOp, (reduceIdentity op).isSome = true →
      ∀ a : ArrayRef, (reduceNodeCtorNoInit op (some a)).isOk = true)
    ∧ (∀ a : ArrayRef,
        ((reduceNodeCtorNoInit MaxNode (some a)).isOk = false ↔ a.dynamic = true))
    ∧ (∀ a : ArrayRef,
        ((reduceNodeCtorNoInit MinNode (some a)).isOk = false ↔ a.dynamic = true))
    ∧ (∀ (a : ArrayRef) (init : ℚ),
        (reduceNodeCtorWithInit (some a) init).isOk = true) := by
  refine ⟨?_, ?_, ?_, ?_⟩
  · intro op hop a
    unfold reduceNodeCtorNoInit
    cases hid : reduceIdentity op with
    | some v => rfl
    | none => rw [hid] at hop; simp at hop
  · intro a
    show ((if a.dynamic then Except.error CtorError.invalidArgument
      else Except.ok (a, none)).isOk = false) ↔ a.dynamic = true
    by_cases hd : a.dynamic = true
    · rw [if_pos hd]
      exact iff_of_true rfl hd
    · rw [if_neg hd]
      constructor
      · intro h
        simp [Except.isOk, Except.toBool] at h
      · intro h
        exact absurd h hd
  · intro a
    show ((if a.dynamic then Except.error CtorError.invalidArgument
      else Except.ok (a, none)).isOk = false) ↔ a.dynamic = true
    by_cases hd : a.dynamic = true
    · rw [if_pos hd]
      exact iff_of_true rfl hd
    · rw [if_neg hd]
      constructor
      · intro h
        simp [Except.isOk, Except.toBool] at h
      · intro h
        exact absurd h hd
  · intro a init
    rfl

/-- Witness for C6: SumNode over a dynamic array needs no init, while
MaxNode over the same dynamic array fails without one. -/
theorem claim_C6_witness :
    (reduceNodeCtorNoInit SumNode (some ⟨[Extent.dyn]⟩)).isOk = true
    ∧ (reduceNodeCtorNoInit MaxNode (some ⟨[Extent.dyn]⟩)).isOk = false :=
  ⟨claim_C6_reduce_init_rules.1 SumNode (by decide) ⟨[Extent.dyn]⟩,
    (claim_C6_reduce_init_rules.2.1 ⟨[Extent.dyn]⟩).mpr (by decide)⟩

/-- Claim C7 (code behavior at the failing input): a predecessor that is
not an Array reaches UnaryOpNode as the null result of dynamic_cast; the
member-initializer list evaluates node_ptr->shape() on it before the
constructor body's null check can throw, so the failure is a null
dereference (undefined behavior), not the claimed invalid-argument error —
whereas ReduceNode(ArrayNode*, double) checks the pointer before any use
and does throw invalid-argument as claimed. -/
theorem claim_C7_nonArray_ctor_behavior :
    unaryOpNodeCtor none = Except.error CtorError.nullDereference
    ∧ (∀ init : ℚ,
        reduceNodeCtorWithInit none init = Except.error CtorError.invalidArgument)
    ∧ CtorError.nullDereference ≠ CtorError.invalidArgument := by
  exact ⟨rfl, fun init => rfl, by decide⟩

/-- Claim C8: BinaryOpNode construction succeeds exactly for two Array
predecessors of equal shape, and NaryOpNode::add_node succeeds exactly
for an Array predecessor whose shape matches the shape shared by the
existing operands; both fail with invalid-argument otherwise. -/
theorem claim_C8_shape_validation :
    (∀ a_ptr b_ptr : Option ArrayRef,
      ((binaryOpNodeCtor a_ptr b_ptr).isOk = true
        ↔ ∃ x y, a_ptr = some x ∧ b_ptr = some y ∧ x.shape = y.shape))
    ∧ (∀ a_ptr b_ptr : Option ArrayRef,
      (binaryOpNodeCtor a_ptr b_ptr).isOk = false →
        binaryOpNodeCtor a_ptr b_ptr = Except.error CtorError.invalidArgument)
    ∧ (∀ (cfg : NaryOpNodeData) (node_ptr : Option ArrayRef),
      ((NaryOpNode.add_node cfg node_ptr).isOk = true
        ↔ ∃ x, node_ptr = some x ∧ x.shape = cfg.shape))
    ∧ (∀ (cfg : NaryOpNodeData) (node_ptr : Option ArrayRef),
      (NaryOpNode.add_node cfg node_ptr).isOk = false →
        NaryOpNode.add_node cfg node_ptr = Except.error CtorError.invalidArgument) := by
  refine ⟨?_, ?_, ?_, ?_⟩
  · intro a_ptr b_ptr
    cases a_ptr with
    | none => simp [binaryOpNodeCtor, Except.isOk, Except.toBool]
    | some a =>
        cases b_ptr with
        | none => simp [binaryOpNodeCtor, Except.isOk, Except.toBool]
        | some b =>
            by_cases h : a.shape = b.shape
            · simp [binaryOpNodeCtor, h, Except.isOk, Except.toBool]
            · simp only [binaryOpNodeCtor, if_neg h]
              constructor
              · intro h2
                simp [Except.isOk, Except.toBool] at h2
              · rintro ⟨x, y, hx, hy, hxy⟩
                cases hx
                cases hy
                exact absurd hxy h
  · intro a_ptr b_ptr h
    cases a_ptr with
    | none => rfl
    | some a =>
        cases b_ptr with
        | none => rfl
        | some b =>
            by_cases h2 : a.shape = b.shape
            · simp [binaryOpNodeCtor, h2, Except.isOk, Except.toBool] at h
            · simp [binaryOpNodeCtor, h2]
  · intro cfg node_ptr
    cases node_ptr with
    | none => simp [NaryOpNode.add_node, Except.isOk, Except.toBool]
    | some a =>
        by_cases h : a.shape = cfg.shape
        · simp [NaryOpNode.add_node, h, Except.isOk, Except.toBool]
        · simp only [NaryOpNode.add_node, if_neg h]
          constructor
          · intro h2
            simp [Except.isOk, Except.toBool] at h2
          · rintro ⟨x, hx, hxy⟩
            cases hx
            exact absurd hxy h
  · intro cfg node_ptr h
    cases node_ptr with
    | none => rfl
    | some a =>
        by_cases h2 : a.shape = cfg.shape
        · simp [NaryOpNode.add_node, h2, Except.isOk, Except.toBool] at h
        · simp [NaryOpNode.add_node, h2]

/-- Witness for C8: equal-shape construction succeeds; an add_node with a
matching shape succeeds. -/
theorem claim_C8_witness :
    (binaryOpNodeCtor (some ⟨[Extent.fixed 3]⟩) (some ⟨[Extent.fixed 3]⟩)).isOk = true
    ∧ (NaryOpNode.add_node ⟨[Extent.fixed 3], 2⟩ (some ⟨[Extent.fixed 3]⟩)).isOk = true :=
  ⟨(claim_C8_shape_validation.1 (some ⟨[Extent.fixed 3]⟩)
      (some ⟨[Extent.fixed 3]⟩)).mpr ⟨⟨[Extent.fixed 3]⟩, ⟨[Extent.fixed 3]⟩, rfl, rfl, rfl⟩,
    (claim_C8_shape_validation.2.2.1 ⟨[Extent.fixed 3], 2⟩
      (some ⟨[Extent.fixed 3]⟩)).mpr ⟨⟨[Extent.fixed 3]⟩, rfl, rfl⟩⟩

/-- Claim C9: the output of a ReduceNode is always a single scalar — its
buffer has length exactly 1 after any sequence of writes, propagate,
commit and revert operations, and the scalar shape declared by
ScalarOutputMixin has no axes, hence no dynamic axis. -/
theorem claim_C9_reduce_scalar_output :
    (∀ (init : ℚ) (b : List ℚ) (steps : List RedStep),
      (redRun steps (redInitializeState init b)).out.buffer.length = 1)
    ∧ shapeHasDynamicAxis scalarOutputShape = false := by
  refine ⟨?_, rfl⟩
  intro init b steps
  rw [redRun_out_length]
  rfl

/-- Claim C10: for EqualNode, LessEqualNode, AndNode and OrNode, every
value the node's buffer ever holds is exactly 0 or 1 (the double
conversion of the operator's bool result), for any operand values and any
mutation/propagate/commit/revert history, and the node reports integral()
as true. -/
theorem claim_C10_logical_nodes_binary_output :
    ∀ f : BinOp, f ∈ ([AndNode, OrNode, EqualNode, LessEqualNode] : List BinOp) →
      (∀ (a b : List ℚ), a.length = b.length →
        ∀ (rs : List (List Mut × Bool)) (ms : List Mut) (doProp : Bool),
          ∀ v ∈ (reachable (binaryG f) [a, b] a.length rs ms doProp).out.buffer,
            v = 0 ∨ v = 1)
      ∧ (∀ li ri : Bool, BinOp.integral f li ri = true) := by
  intro f hf
  have hval : ∀ x y : ℚ, f.apply x y = 0 ∨ f.apply x y = 1 := by
    simp only [AndNode, OrNode, EqualNode, LessEqualNode, List.mem_cons,
      List.not_mem_nil, or_false] at hf
    rcases hf with rfl | rfl | rfl | rfl
    all_goals
      intro x y
      simp only [BinOp.apply]
      split
      · exact Or.inr rfl
      · exact Or.inl rfl
  constructor
  · intro a b hab rs ms doProp
    apply reachable_out_vals (Q := fun _ _ => True) (P := fun v => v = 0 ∨ v = 1)
    · intro col hcol hq
      exact hval (col.getD 0 0) (col.getD 1 0)
    · intro c hc
      rcases List.mem_cons.mp hc with rfl | hc2
      · rfl
      · rcases List.mem_cons.mp hc2 with rfl | hc3
        · exact hab.symm
        · simp at hc3
    · intro k hk v hv
      trivial
    · intro m hm
      trivial
  · simp only [AndNode, OrNode, EqualNode, LessEqualNode, List.mem_cons,
      List.not_mem_nil, or_false] at hf
    rcases hf with rfl | rfl | rfl | rfl <;> intro li ri <;> rfl

/-- Witness for C10: the AndNode system over operands [0] and [1]
propagates to the value 0, which is 0 or 1; AndNode reports integral. -/
theorem claim_C10_witness :
    ((0 : ℚ) = 0 ∨ (0 : ℚ) = 1) ∧ BinOp.integral AndNode false false = true :=
  ⟨(claim_C10_logical_nodes_binary_output AndNode (by decide)).1 [0] [1] rfl [] [] true
      0 (by decide),
    (claim_C10_logical_nodes_binary_output AndNode (by decide)).2 false false⟩
